import Mathlib

/-!
# Hyperbolic-geometry kernel of `Skeleton.cpp`

A shallow embedding of the class `Hyp` (a point of the hyperboloid model together with a
direction), of the class `HypCircle` (a disk and its boundary samples), of the class `UFO`
(placement of the eyes, pupils and mouth in `Realign`, the mouth oscillator `MoveMouth`), and of
the properties the specification states about them.

Numbers are real numbers: `float` is read as `ℝ`, and `sqrtf`, `coshf`, `sinhf`, `cosf`, `sinf`,
`acoshf` as the real functions.  In Lean `Real.sqrt` of a negative number is `0` and a quotient by
zero is `0`.  On valid inputs every radicand met is positive and every divisor non-zero (the
lemmas `NewPoint_eq`, `RotateV0_eq` and the theorem on `GetDistanceDirection` show the values);
where the specification speaks about the inputs outside the domain, the radicand or the divisor
is stated explicitly, and the quotient of `GetDistanceDirection` is also given in a checked form.
-/

noncomputable section

namespace Skeleton

/-! ## Vectors of `framework.h` -/

/-- Modelled from the spec: the type `vec2` of `framework.h`, a planar coordinate pair. -/
@[ext]
structure vec2 where
  x : ℝ
  y : ℝ

/-- Modelled from the spec: the type `vec3` of `framework.h`, "a 3-component real vector
`(x, y, z)`". -/
@[ext]
structure vec3 where
  x : ℝ
  y : ℝ
  z : ℝ

/-- Modelled from the spec: `vec3 operator+(vec3)` of `framework.h`, componentwise sum. -/
instance : Add vec3 := ⟨fun a b => ⟨a.x + b.x, a.y + b.y, a.z + b.z⟩⟩

/-- Modelled from the spec: `vec3 operator-(vec3)` of `framework.h`, componentwise difference. -/
instance : Sub vec3 := ⟨fun a b => ⟨a.x - b.x, a.y - b.y, a.z - b.z⟩⟩

/-- Modelled from the spec: unary `vec3 operator-()` of `framework.h`. -/
instance : Neg vec3 := ⟨fun a => ⟨-a.x, -a.y, -a.z⟩⟩

/-- Modelled from the spec: `vec3 operator*(float)` of `framework.h`, scaling on the right. -/
instance : HMul vec3 ℝ vec3 := ⟨fun a s => ⟨a.x * s, a.y * s, a.z * s⟩⟩

/-- Modelled from the spec: `operator*(float, vec3)` of `framework.h`, scaling on the left. -/
instance : HMul ℝ vec3 vec3 := ⟨fun s a => ⟨a.x * s, a.y * s, a.z * s⟩⟩

/-- Modelled from the spec: `vec3 operator/(float)` of `framework.h`, componentwise quotient. -/
instance : HDiv vec3 ℝ vec3 := ⟨fun a s => ⟨a.x / s, a.y / s, a.z / s⟩⟩

/-- Modelled from the spec: `vec2 operator*(float)` of `framework.h`, scaling on the right. -/
instance : HMul vec2 ℝ vec2 := ⟨fun a s => ⟨a.x * s, a.y * s⟩⟩

/-- Modelled from the spec: `length(vec2)` of `framework.h`, the Euclidean length of a planar
vector. -/
def length (v : vec2) : ℝ := Real.sqrt (v.x * v.x + v.y * v.y)

/-- Modelled from the spec: `normalize(vec2)` of `framework.h`, the planar vector scaled by the
inverse of its Euclidean length. -/
def normalize (v : vec2) : vec2 := v * (1 / length v)

/-- Modelled from the spec: the converting constructor `vec3(vec2)` of `framework.h`, which
sets `z` to `0`; it is what turns the planar vector handed to `SetV0` in `UFO::Realign` into
"the planar vector `(v0.x, v0.y, 0)`". -/
def vec3.ofVec2 (v : vec2) : vec3 := ⟨v.x, v.y, 0⟩

/-- The function `acoshf` of the C library on its domain `[1, ∞)`: the inverse of `cosh`
restricted to the non-negative reals. -/
def acoshf (x : ℝ) : ℝ := Real.log (x + Real.sqrt (x ^ 2 - 1))

/-! ## class `Hyp` -/

/-- The class `Hyp`: a position `point` and a direction `v0`. -/
@[ext]
structure Hyp where
  point : vec3
  v0 : vec3

/-- `Hyp::ProjectPoincToHyp`. -/
def ProjectPoincToHyp (point : vec2) : vec3 :=
  (⟨point.x, point.y, 1⟩ : vec3) / Real.sqrt (1 - point.x * point.x - point.y * point.y)

/-- `Hyp::ProjectHypToPoinc`. -/
def ProjectHypToPoinc (point : vec3) : vec2 :=
  ⟨point.x / (point.z + 1), point.y / (point.z + 1)⟩

/-- The constructor `Hyp(vec2 point, vec3 v0)`. -/
def Hyp.fromPoinc (point : vec2) (v0 : vec3) : Hyp :=
  ⟨ProjectPoincToHyp point, v0⟩

/-- `Hyp::len`. -/
def len (v : vec3) : ℝ := Real.sqrt (v.x * v.x + v.y * v.y - v.z * v.z)

/-- `Hyp::SetPoint`. -/
def Hyp.SetPoint (h : Hyp) (dist : vec2) : Hyp :=
  { h with point := ProjectPoincToHyp dist }

/-- `Hyp::ReturnPoinc`. -/
def Hyp.ReturnPoinc (h : Hyp) : vec2 := ProjectHypToPoinc h.point

/-- `Hyp::Dot`, the Lorentz form. -/
def Dot (a b : vec3) : ℝ := a.x * b.x + a.y * b.y - a.z * b.z

/-- `Hyp::NormalizeHyp`. -/
def NormalizeHyp (v : vec3) : vec3 := v * (1 / len v)

/-- `Hyp::Cross`. -/
def Cross (v1 v2 : vec3) : vec3 :=
  ⟨v1.y * -v2.z - -v1.z * v2.y, -v1.z * v2.x - v1.x * -v2.z, v1.x * v2.y - v1.y * v2.x⟩

/-- `Hyp::VectorLambda`. -/
def VectorLambda (v p : vec3) : ℝ :=
  let a := Dot v p
  let b := p.z * p.z - p.x * p.x - p.y * p.y
  a / b

/-- `Hyp::PointLambda`. -/
def PointLambda (p : vec3) : ℝ := Real.sqrt (-1 / Dot p p)

/-- `Hyp::CorrectPAV0`: the two out-parameters are returned as a pair. -/
def CorrectPAV0 (p v : vec3) : vec3 × vec3 :=
  let p1 := p * PointLambda p
  let v1 := v + VectorLambda v p1 * p1
  (p1, v1)

/-- `Hyp::NewPoint`. -/
def Hyp.NewPoint (h : Hyp) (t : ℝ) : Hyp :=
  let q := h.point * Real.cosh t + h.v0 * Real.sinh t
  let vq := h.point * Real.sinh t + h.v0 * Real.cosh t
  let c := CorrectPAV0 q vq
  ⟨c.1, NormalizeHyp c.2⟩

/-- `Hyp::GetDistanceDirection`: the returned distance and the out-parameter `direction`. -/
def Hyp.GetDistanceDirection (h q : Hyp) : ℝ × vec3 :=
  let dist := acoshf (Dot (-q.point) h.point)
  (dist, (q.point - h.point * Real.cosh dist) / Real.sinh dist)

/-- `Hyp::RotateVector` (the local `v_len` is computed and never used). -/
def RotateVector (v p : vec3) (rot : ℝ) : vec3 :=
  let v1 := NormalizeHyp v
  let v_n := v1 * Real.cos rot + NormalizeHyp (Cross (NormalizeHyp v1) p) * Real.sin rot
  NormalizeHyp v_n

/-- `Hyp::RotateV0`. -/
def Hyp.RotateV0 (h : Hyp) (rot : ℝ) : Hyp :=
  let v1 := RotateVector h.v0 h.point rot
  let v2 := v1 + h.point * VectorLambda v1 h.point
  { h with v0 := NormalizeHyp v2 }

/-- `Hyp::CreateNewPointDelta`. -/
def Hyp.CreateNewPointDelta (h : Hyp) (dist rot : ℝ) : Hyp :=
  (h.RotateV0 rot).NewPoint dist

/-- `Hyp::getRotationVector`. -/
def Hyp.getRotationVector (h : Hyp) : vec2 := normalize ⟨h.v0.x, h.v0.y⟩

/-- `Hyp::SetV0`. -/
def Hyp.SetV0 (h : Hyp) (v : vec3) : Hyp := { h with v0 := v }

/-- The invariants of a `Hyp`: the position is on the hyperboloid, the direction is a unit
vector, and the direction is tangent at the position. -/
def Hyp.valid (h : Hyp) : Prop :=
  Dot h.point h.point = -1 ∧ Dot h.v0 h.v0 = 1 ∧ Dot h.point h.v0 = 0

/-- A call on a `Hyp` object that moves it: `NewPoint(t)`, whose result replaces the object
(as in `HypCircle::MoveForward`), or `RotateV0(angle)`. -/
inductive HypCall where
  | NewPoint (t : ℝ)
  | RotateV0 (angle : ℝ)

/-- One call applied to a `Hyp`. -/
def Hyp.call (h : Hyp) : HypCall → Hyp
  | HypCall.NewPoint t => h.NewPoint t
  | HypCall.RotateV0 angle => h.RotateV0 angle

/-- A finite sequence of calls applied from left to right. -/
def Hyp.calls (h : Hyp) (cs : List HypCall) : Hyp := cs.foldl Hyp.call h

/-! ## Outcomes seen by a caller -/

/-- The error conditions the specification names. -/
inductive HypError where
  | DomainError
  | DegenerateQuery
  deriving DecidableEq

/-- What a caller of `ProjectPoincToHyp` receives: the body is one `return` of the quotient, with
no test of the argument, no `throw` and no error value. -/
def ProjectPoincToHyp_outcome (point : vec2) : Except HypError vec3 :=
  Except.ok (ProjectPoincToHyp point)

/-- What a caller of the constructor `Hyp(vec2, vec3)` receives: the object, whatever the
planar point is. -/
def Hyp.fromPoinc_outcome (point : vec2) (v0 : vec3) : Except HypError Hyp :=
  (ProjectPoincToHyp_outcome point).map (fun p => ⟨p, v0⟩)

/-- What a caller of `SetPoint` receives: the updated object, whatever the planar point is. -/
def Hyp.SetPoint_outcome (h : Hyp) (dist : vec2) : Except HypError Hyp :=
  (ProjectPoincToHyp_outcome dist).map (fun p => { h with point := p })

/-- The quotient of a vector by a scalar where it has a value as a real vector: `none` for a
zero divisor (the floating-point quotient is then a NaN or an infinity). -/
def vec3.divChecked (v : vec3) (s : ℝ) : Option vec3 :=
  if s = 0 then none else some (v / s)

/-- `Hyp::GetDistanceDirection` with its quotient checked: the same two statements, the
division by `sinhf(dist)` being `vec3.divChecked`.  The source has no test of `dist`. -/
def Hyp.GetDistanceDirectionChecked (h q : Hyp) : Option (ℝ × vec3) :=
  let dist := acoshf (Dot (-q.point) h.point)
  (vec3.divChecked (q.point - h.point * Real.cosh dist) (Real.sinh dist)).map
    (fun direction => (dist, direction))

/-! ## class `HypCircle` -/

/-- The constant `db`, the number of boundary samples. -/
def db : ℕ := 100

/-- The class `HypCircle`, its geometric fields (the buffer id and the colour play no part in
the computation of the vertices). -/
structure HypCircle where
  radius : ℝ
  pos : Hyp

/-- The boundary sample `temp` of index `i` in the loop of `HypCircle::Refresh` (and of the
constructor): `copy.CreateNewPointDelta(radius, pi_2 / db * i)` with `pi_2 = M_PI * 2.0f`. -/
def HypCircle.temp (c : HypCircle) (i : ℕ) : Hyp :=
  c.pos.CreateNewPointDelta c.radius (Real.pi * 2 / (db : ℝ) * (i : ℝ))

/-- The array `vertices` that `HypCircle::Refresh` fills, as planar points: the centre, the
samples `1 .. db`, and the first sample again. -/
def HypCircle.Refresh (c : HypCircle) : List vec2 :=
  c.pos.ReturnPoinc :: ((List.range db).map (fun i => (c.temp (i + 1)).ReturnPoinc)
    ++ [(c.temp 1).ReturnPoinc])

/-- `HypCircle::GetPos`. -/
def HypCircle.GetPos (c : HypCircle) : Hyp := c.pos

/-- `HypCircle::SetPos`. -/
def HypCircle.SetPos (c : HypCircle) (a : Hyp) : HypCircle := { c with pos := a }

/-- `HypCircle::GetRadius`. -/
def HypCircle.GetRadius (c : HypCircle) : ℝ := c.radius

/-- `HypCircle::SetRadius`. -/
def HypCircle.SetRadius (c : HypCircle) (rad : ℝ) : HypCircle := { c with radius := rad }

/-- `HypCircle::MoveForward`. -/
def HypCircle.MoveForward (c : HypCircle) (amount : ℝ) : HypCircle :=
  { c with pos := c.pos.NewPoint amount }

/-- `HypCircle::MoveBackwards`. -/
def HypCircle.MoveBackwards (c : HypCircle) (amount : ℝ) : HypCircle :=
  { c with pos := c.pos.NewPoint (-amount) }

/-- `HypCircle::RotateRight`. -/
def HypCircle.RotateRight (c : HypCircle) (amount : ℝ) : HypCircle :=
  { c with pos := c.pos.RotateV0 (-amount) }

/-- `HypCircle::RotateLeft`. -/
def HypCircle.RotateLeft (c : HypCircle) (amount : ℝ) : HypCircle :=
  { c with pos := c.pos.RotateV0 amount }

/-! ## class `UFO` -/

/-- The class `UFO`, the fields that its geometry and its mouth use: the array `eyes[4]` is the
four fields `eyes0 .. eyes3` (`eyes[0]`, `eyes[1]` the eyes, `eyes[2]`, `eyes[3]` their pupils).
The colour and the trail play no part below, and the pointer `other` is an argument of
`Realign`. -/
structure UFO where
  body : HypCircle
  eyes0 : HypCircle
  eyes1 : HypCircle
  eyes2 : HypCircle
  eyes3 : HypCircle
  mouth : HypCircle
  mouth_direction : Bool

/-- The constructor `UFO(Color col)`, with the member initialiser `mouth_direction = true`. -/
def UFO.ctor : UFO where
  body := HypCircle.mk 0.2 (Hyp.mk ⟨0, 0, 1⟩ ⟨0, 1, 0⟩)
  eyes0 := HypCircle.mk 0.05 (Hyp.mk ⟨0, 0, 1⟩ ⟨0, 1, 0⟩)
  eyes1 := HypCircle.mk 0.05 (Hyp.mk ⟨0, 0, 1⟩ ⟨0, 1, 0⟩)
  eyes2 := HypCircle.mk 0.03 (Hyp.mk ⟨0, 0, 1⟩ ⟨0, 1, 0⟩)
  eyes3 := HypCircle.mk 0.03 (Hyp.mk ⟨0, 0, 1⟩ ⟨0, 1, 0⟩)
  mouth := HypCircle.mk 0.1 (Hyp.mk ⟨0, 0, 1⟩ ⟨0, 1, 0⟩)
  mouth_direction := true

/-- `UFO::MoveMouth`. -/
def UFO.MoveMouth (u : UFO) : UFO :=
  let delta : ℝ := 0.005
  let u1 : UFO :=
    if u.mouth_direction then
      { u with mouth := u.mouth.SetRadius (u.mouth.GetRadius - delta) }
    else
      { u with mouth := u.mouth.SetRadius (u.mouth.GetRadius + delta) }
  if u1.mouth.GetRadius > 0.1 ∨ u1.mouth.GetRadius < 0 then
    { u1 with mouth_direction := !u1.mouth_direction }
  else u1

/-- `UFO::Realign`; `other` is the entity that the pointer `other` refers to.  The calls of
`Refresh` recompute the vertex arrays, which are `HypCircle.Refresh` of the disks returned. -/
def UFO.Realign (u other : UFO) : UFO :=
  let eye_dir : ℝ := 0.6
  let copy0 := u.body.GetPos
  let copy1 := copy0.SetV0 (vec3.ofVec2 copy0.getRotationVector)
  let copy2 := copy1.RotateV0 eye_dir
  let left_eye := copy2.NewPoint u.body.GetRadius
  let eyes0 := u.eyes0.SetPos left_eye
  let dirL := (left_eye.GetDistanceDirection other.body.GetPos).2
  let left_pupil := (left_eye.SetV0 dirL).NewPoint (eyes0.GetRadius - u.eyes2.GetRadius / 2)
  let eyes2 := u.eyes2.SetPos left_pupil
  let copy3 := copy2.RotateV0 (-eye_dir * 2)
  let right_eye := copy3.NewPoint u.body.GetRadius
  let eyes1 := u.eyes1.SetPos right_eye
  let dirR := (right_eye.GetDistanceDirection other.body.GetPos).2
  let right_pupil := (right_eye.SetV0 dirR).NewPoint (eyes1.GetRadius - u.eyes3.GetRadius / 2)
  let eyes3 := u.eyes3.SetPos right_pupil
  let copy4 := copy3.RotateV0 eye_dir
  let mouth_point := copy4.NewPoint u.body.GetRadius
  { u with eyes0 := eyes0, eyes1 := eyes1, eyes2 := eyes2, eyes3 := eyes3,
           mouth := u.mouth.SetPos mouth_point }

/-- The local `copy` of `UFO::Realign` after `SetV0` and the first `RotateV0(eye_dir)`, from
which the left eye is placed. -/
def UFO.Realign_copyL (u : UFO) : Hyp :=
  (u.body.GetPos.SetV0 (vec3.ofVec2 u.body.GetPos.getRotationVector)).RotateV0 0.6

/-- The local `copy` of `UFO::Realign` after `RotateV0(-eye_dir * 2)`, from which the right
eye is placed. -/
def UFO.Realign_copyR (u : UFO) : Hyp := u.Realign_copyL.RotateV0 (-0.6 * 2)

/-- The local `copy` of `UFO::Realign` after the last `RotateV0(eye_dir)`, from which the mouth
is placed. -/
def UFO.Realign_copyM (u : UFO) : Hyp := u.Realign_copyR.RotateV0 0.6

/-- `UFO::RotateRight`. -/
def UFO.RotateRight (u : UFO) (rot : ℝ) : UFO := { u with body := u.body.RotateRight rot }

/-- `UFO::RotateLeft`. -/
def UFO.RotateLeft (u : UFO) (rot : ℝ) : UFO := { u with body := u.body.RotateLeft rot }

/-- `UFO::MoveForward`. -/
def UFO.MoveForward (u : UFO) (amount : ℝ) : UFO := { u with body := u.body.MoveForward amount }

/-- `UFO::MoveBackwards`. -/
def UFO.MoveBackwards (u : UFO) (amount : ℝ) : UFO :=
  { u with body := u.body.MoveBackwards amount }

/-- The global `first` as `onInitialization` leaves it. -/
def first : UFO := UFO.ctor

/-- The global `second` as `onInitialization` leaves it: constructed, rotated right by
`M_PI / 2.0f` and moved forward by `1`. -/
def second : UFO := (UFO.ctor.RotateRight (Real.pi / 2)).MoveForward 1

/-- The invariant of the mouth oscillator: the radius is an integer number `k` of steps of
`0.005`; while the radius decreases `0 ≤ k ≤ 21`, and while it increases `-1 ≤ k ≤ 20`. -/
def UFO.mouthInv (u : UFO) : Prop :=
  ∃ k : ℤ, u.mouth.radius = (k : ℝ) * 0.005 ∧
    ((u.mouth_direction = true ∧ 0 ≤ k ∧ k ≤ 21) ∨
      (u.mouth_direction = false ∧ -1 ≤ k ∧ k ≤ 20))

/-! ## Components of vector expressions -/

@[simp] theorem vec3.add_x (a b : vec3) : (a + b).x = a.x + b.x := rfl
@[simp] theorem vec3.add_y (a b : vec3) : (a + b).y = a.y + b.y := rfl
@[simp] theorem vec3.add_z (a b : vec3) : (a + b).z = a.z + b.z := rfl
@[simp] theorem vec3.sub_x (a b : vec3) : (a - b).x = a.x - b.x := rfl
@[simp] theorem vec3.sub_y (a b : vec3) : (a - b).y = a.y - b.y := rfl
@[simp] theorem vec3.sub_z (a b : vec3) : (a - b).z = a.z - b.z := rfl
@[simp] theorem vec3.neg_x (a : vec3) : (-a).x = -a.x := rfl
@[simp] theorem vec3.neg_y (a : vec3) : (-a).y = -a.y := rfl
@[simp] theorem vec3.neg_z (a : vec3) : (-a).z = -a.z := rfl
@[simp] theorem vec3.mul_x (a : vec3) (s : ℝ) : (a * s).x = a.x * s := rfl
@[simp] theorem vec3.mul_y (a : vec3) (s : ℝ) : (a * s).y = a.y * s := rfl
@[simp] theorem vec3.mul_z (a : vec3) (s : ℝ) : (a * s).z = a.z * s := rfl
@[simp] theorem vec3.smul_x (s : ℝ) (a : vec3) : (s * a).x = a.x * s := rfl
@[simp] theorem vec3.smul_y (s : ℝ) (a : vec3) : (s * a).y = a.y * s := rfl
@[simp] theorem vec3.smul_z (s : ℝ) (a : vec3) : (s * a).z = a.z * s := rfl
@[simp] theorem vec3.div_x (a : vec3) (s : ℝ) : (a / s).x = a.x / s := rfl
@[simp] theorem vec3.div_y (a : vec3) (s : ℝ) : (a / s).y = a.y / s := rfl
@[simp] theorem vec3.div_z (a : vec3) (s : ℝ) : (a / s).z = a.z / s := rfl

/-! ## Algebra of the Lorentz form -/

theorem len_eq (v : vec3) : len v = Real.sqrt (Dot v v) := rfl

theorem Dot_comm (a b : vec3) : Dot a b = Dot b a := by
  unfold Dot; ring

theorem Dot_add_left (a b c : vec3) : Dot (a + b) c = Dot a c + Dot b c := by
  simp only [Dot, vec3.add_x, vec3.add_y, vec3.add_z]; ring

theorem Dot_add_right (a b c : vec3) : Dot a (b + c) = Dot a b + Dot a c := by
  simp only [Dot, vec3.add_x, vec3.add_y, vec3.add_z]; ring

theorem Dot_mul_left (a b : vec3) (s : ℝ) : Dot (a * s) b = s * Dot a b := by
  simp only [Dot, vec3.mul_x, vec3.mul_y, vec3.mul_z]; ring

theorem Dot_mul_right (a b : vec3) (s : ℝ) : Dot a (b * s) = s * Dot a b := by
  simp only [Dot, vec3.mul_x, vec3.mul_y, vec3.mul_z]; ring

theorem vec3_mul_one (v : vec3) : v * (1 : ℝ) = v := by
  ext <;> simp

theorem vec3_add_mul_zero (v p : vec3) : v + p * (0 : ℝ) = v := by
  ext <;> simp

theorem vec3_add_zero_smul (v p : vec3) : v + (0 : ℝ) * p = v := by
  ext <;> simp

/-- A vector of Lorentz norm one is left as it is by `NormalizeHyp`. -/
theorem NormalizeHyp_of_unit (v : vec3) (h : Dot v v = 1) : NormalizeHyp v = v := by
  unfold NormalizeHyp
  rw [len_eq, h, Real.sqrt_one, div_one, vec3_mul_one]

/-- A point of the hyperboloid has `PointLambda` one. -/
theorem PointLambda_of_hyperboloid (p : vec3) (h : Dot p p = -1) : PointLambda p = 1 := by
  unfold PointLambda
  rw [h]; norm_num

/-- A vector orthogonal to `p` has `VectorLambda` zero. -/
theorem VectorLambda_of_orthogonal (v p : vec3) (h : Dot v p = 0) : VectorLambda v p = 0 := by
  unfold VectorLambda
  simp [h]

/-- On a pair that satisfies the invariants `CorrectPAV0` changes nothing. -/
theorem CorrectPAV0_of_valid (p v : vec3) (hp : Dot p p = -1) (hv : Dot v p = 0) :
    CorrectPAV0 p v = (p, v) := by
  unfold CorrectPAV0
  simp only [PointLambda_of_hyperboloid p hp, vec3_mul_one, VectorLambda_of_orthogonal v p hv,
    vec3_add_zero_smul]

/-- The Lorentz norm of `Cross a b`. -/
theorem Dot_Cross_self (a b : vec3) :
    Dot (Cross a b) (Cross a b) = Dot a b ^ 2 - Dot a a * Dot b b := by
  simp only [Dot, Cross]; ring

theorem Dot_Cross_left (a b : vec3) : Dot (Cross a b) a = 0 := by
  simp only [Dot, Cross]; ring

theorem Dot_Cross_right (a b : vec3) : Dot (Cross a b) b = 0 := by
  simp only [Dot, Cross]; ring

/-- The double product `Cross (Cross v p) p`. -/
theorem Cross_Cross (v p : vec3) :
    Cross (Cross v p) p = v * Dot p p + p * (-Dot v p) := by
  ext <;> simp only [Dot, Cross, vec3.add_x, vec3.add_y, vec3.add_z, vec3.mul_x, vec3.mul_y,
    vec3.mul_z] <;> ring

/-- The position and direction that `NewPoint` computes from a valid `Hyp`: the correction and
the normalisation leave the hyperbolic combination as it is. -/
theorem NewPoint_eq (h : Hyp) (t : ℝ) (hv : h.valid) :
    h.NewPoint t = ⟨h.point * Real.cosh t + h.v0 * Real.sinh t,
      h.point * Real.sinh t + h.v0 * Real.cosh t⟩ := by
  obtain ⟨hp, hd, ht⟩ := hv
  have ht' : Dot h.v0 h.point = 0 := by rw [Dot_comm]; exact ht
  have hc := Real.cosh_sq t
  have hq : Dot (h.point * Real.cosh t + h.v0 * Real.sinh t)
      (h.point * Real.cosh t + h.v0 * Real.sinh t) = -1 := by
    simp only [Dot_add_left, Dot_add_right, Dot_mul_left, Dot_mul_right, hp, hd, ht, ht']
    nlinarith
  have hvq : Dot (h.point * Real.sinh t + h.v0 * Real.cosh t)
      (h.point * Real.cosh t + h.v0 * Real.sinh t) = 0 := by
    simp only [Dot_add_left, Dot_add_right, Dot_mul_left, Dot_mul_right, hp, hd, ht, ht']
    ring
  have hvv : Dot (h.point * Real.sinh t + h.v0 * Real.cosh t)
      (h.point * Real.sinh t + h.v0 * Real.cosh t) = 1 := by
    simp only [Dot_add_left, Dot_add_right, Dot_mul_left, Dot_mul_right, hp, hd, ht, ht']
    nlinarith
  unfold Hyp.NewPoint
  simp only [CorrectPAV0_of_valid _ _ hq hvq, NormalizeHyp_of_unit _ hvv]

/-- The direction that `RotateV0` computes from a valid `Hyp`: every normalisation in
`RotateVector` and `RotateV0` acts on a unit vector and the re-orthogonalisation adds nothing. -/
theorem RotateV0_eq (h : Hyp) (a : ℝ) (hv : h.valid) :
    h.RotateV0 a = ⟨h.point, h.v0 * Real.cos a + Cross h.v0 h.point * Real.sin a⟩ := by
  obtain ⟨hp, hd, ht⟩ := hv
  have ht' : Dot h.v0 h.point = 0 := by rw [Dot_comm]; exact ht
  have hw : Dot (Cross h.v0 h.point) (Cross h.v0 h.point) = 1 := by
    rw [Dot_Cross_self, ht', hd, hp]; norm_num
  have hwv : Dot (Cross h.v0 h.point) h.v0 = 0 := Dot_Cross_left _ _
  have hvw : Dot h.v0 (Cross h.v0 h.point) = 0 := by rw [Dot_comm]; exact hwv
  have hwp : Dot (Cross h.v0 h.point) h.point = 0 := Dot_Cross_right _ _
  have hcs := Real.cos_sq_add_sin_sq a
  have hn : Dot (h.v0 * Real.cos a + Cross h.v0 h.point * Real.sin a)
      (h.v0 * Real.cos a + Cross h.v0 h.point * Real.sin a) = 1 := by
    simp only [Dot_add_left, Dot_add_right, Dot_mul_left, Dot_mul_right, hd, hw, hwv, hvw]
    nlinarith
  have hnp : Dot (h.v0 * Real.cos a + Cross h.v0 h.point * Real.sin a) h.point = 0 := by
    simp only [Dot_add_left, Dot_mul_left, ht', hwp]
    ring
  have hrv : RotateVector h.v0 h.point a
      = h.v0 * Real.cos a + Cross h.v0 h.point * Real.sin a := by
    unfold RotateVector
    simp only [NormalizeHyp_of_unit _ hd, NormalizeHyp_of_unit _ hw, NormalizeHyp_of_unit _ hn]
  unfold Hyp.RotateV0
  simp only [hrv, VectorLambda_of_orthogonal _ _ hnp, vec3_add_mul_zero,
    NormalizeHyp_of_unit _ hn]

/-- `NewPoint` keeps the invariants. -/
theorem NewPoint_valid (h : Hyp) (t : ℝ) (hv : h.valid) : (h.NewPoint t).valid := by
  rw [NewPoint_eq h t hv]
  obtain ⟨hp, hd, ht⟩ := hv
  have ht' : Dot h.v0 h.point = 0 := by rw [Dot_comm]; exact ht
  have hc := Real.cosh_sq t
  refine ⟨?_, ?_, ?_⟩ <;>
    simp only [Dot_add_left, Dot_add_right, Dot_mul_left, Dot_mul_right, hp, hd, ht, ht'] <;>
    nlinarith

/-- `RotateV0` keeps the invariants. -/
theorem RotateV0_valid (h : Hyp) (a : ℝ) (hv : h.valid) : (h.RotateV0 a).valid := by
  rw [RotateV0_eq h a hv]
  obtain ⟨hp, hd, ht⟩ := hv
  have ht' : Dot h.v0 h.point = 0 := by rw [Dot_comm]; exact ht
  have hw : Dot (Cross h.v0 h.point) (Cross h.v0 h.point) = 1 := by
    rw [Dot_Cross_self, ht', hd, hp]; norm_num
  have hwv : Dot (Cross h.v0 h.point) h.v0 = 0 := Dot_Cross_left _ _
  have hvw : Dot h.v0 (Cross h.v0 h.point) = 0 := by rw [Dot_comm]; exact hwv
  have hwp : Dot (Cross h.v0 h.point) h.point = 0 := Dot_Cross_right _ _
  have hpw : Dot h.point (Cross h.v0 h.point) = 0 := by rw [Dot_comm]; exact hwp
  have hcs := Real.cos_sq_add_sin_sq a
  refine ⟨hp, ?_, ?_⟩ <;>
    simp only [Dot_add_left, Dot_add_right, Dot_mul_left, Dot_mul_right, hd, hw, hwv, hvw, ht,
      hpw] <;>
    nlinarith

/-! ## The reference point of the program -/

/-- The `Hyp` that every disk of the program starts from, `Hyp({0, 0, 1}, {0, 1, 0})`, is
valid. -/
theorem origin_valid : (Hyp.mk ⟨0, 0, 1⟩ ⟨0, 1, 0⟩).valid := by
  simp [Hyp.valid, Dot]

/-! ## Invariant preservation -/

theorem call_valid (h : Hyp) (c : HypCall) (hv : h.valid) : (h.call c).valid := by
  cases c with
  | NewPoint t => exact NewPoint_valid h t hv
  | RotateV0 angle => exact RotateV0_valid h angle hv

theorem calls_valid (cs : List HypCall) : ∀ h : Hyp, h.valid → (h.calls cs).valid := by
  induction cs with
  | nil => intro h hv; exact hv
  | cons c cs ih =>
    intro h hv
    have step : h.calls (c :: cs) = (h.call c).calls cs := rfl
    rw [step]
    exact ih _ (call_valid h c hv)

/-- C1: starting from a valid `Hyp`, after each call of any finite sequence of `NewPoint(t)` and
`RotateV0(angle)` calls with arbitrary real arguments (that is, after the first `k` calls, for
every `k`) the `Hyp` is again valid: the position has Lorentz norm `-1`, the direction Lorentz
norm `1`, and the two are Lorentz-orthogonal. -/
theorem C1_invariant_preservation (h : Hyp) (hv : h.valid) (cs : List HypCall) (k : ℕ) :
    (h.calls (cs.take k)).valid :=
  calls_valid (cs.take k) h hv

theorem C1_invariant_preservation_witness :
    (Hyp.mk ⟨0, 0, 1⟩ ⟨0, 1, 0⟩).valid ∧
      ((Hyp.mk ⟨0, 0, 1⟩ ⟨0, 1, 0⟩).calls
        ([HypCall.RotateV0 (-2), HypCall.NewPoint 1, HypCall.RotateV0 3].take 2)).valid :=
  ⟨origin_valid, C1_invariant_preservation _ origin_valid _ 2⟩

/-! ## The two projections -/

/-- The lift followed by the projection, in closed form: the planar point comes back divided
by `1 + sqrt (1 - x² - y²)`. -/
theorem project_roundtrip_eq (x y : ℝ) (h : x ^ 2 + y ^ 2 < 1) :
    ProjectHypToPoinc (ProjectPoincToHyp ⟨x, y⟩)
      = ⟨x / (1 + Real.sqrt (1 - x * x - y * y)), y / (1 + Real.sqrt (1 - x * x - y * y))⟩ := by
  have hpos : 0 < Real.sqrt (1 - x * x - y * y) := Real.sqrt_pos.mpr (by nlinarith)
  simp only [ProjectHypToPoinc, ProjectPoincToHyp, vec3.div_x, vec3.div_y, vec3.div_z]
  ext
  · simp only; field_simp
  · simp only; field_simp

/-- C2, evaluated on the code: the planar point `(3/5, 0)` lies inside the unit disk, its lift
is `(3/4, 0, 5/4)`, and projecting the lift back gives `(1/3, 0)`, not `(3/5, 0)`. -/
theorem C2_roundtrip_fails :
    ((3 / 5 : ℝ) ^ 2 + (0 : ℝ) ^ 2 < 1) ∧
      ProjectPoincToHyp ⟨3 / 5, 0⟩ = ⟨3 / 4, 0, 5 / 4⟩ ∧
      ProjectHypToPoinc (ProjectPoincToHyp ⟨3 / 5, 0⟩) = ⟨1 / 3, 0⟩ ∧
      (Hyp.fromPoinc ⟨3 / 5, 0⟩ ⟨0, 1, 0⟩).ReturnPoinc ≠ ⟨3 / 5, 0⟩ := by
  have hs : Real.sqrt (1 - (3 / 5 : ℝ) * (3 / 5) - 0 * 0) = 4 / 5 := by
    rw [show (1 - (3 / 5 : ℝ) * (3 / 5) - 0 * 0) = (4 / 5) ^ 2 by norm_num]
    exact Real.sqrt_sq (by norm_num)
  have hl : ProjectPoincToHyp ⟨3 / 5, 0⟩ = ⟨3 / 4, 0, 5 / 4⟩ := by
    simp only [ProjectPoincToHyp, hs]
    ext <;> simp only [vec3.div_x, vec3.div_y, vec3.div_z] <;> norm_num
  refine ⟨by norm_num, hl, ?_, ?_⟩
  · rw [hl]; simp only [ProjectHypToPoinc]; ext <;> norm_num
  · simp only [Hyp.ReturnPoinc, Hyp.fromPoinc, hl, ProjectHypToPoinc]
    intro hx
    have := congrArg vec2.x hx
    norm_num at this

/-- C10: for a planar point inside the unit disk the lift `ProjectPoincToHyp` is
`(x, y, 1) / sqrt (1 - x² - y²)` with a positive radicand, it lies on the hyperboloid (Lorentz
norm `-1`), and its `z` is positive, indeed at least `1`. -/
theorem C10_lift_on_hyperboloid (x y : ℝ) (h : x ^ 2 + y ^ 2 < 1) :
    ProjectPoincToHyp ⟨x, y⟩ = (⟨x, y, 1⟩ : vec3) / Real.sqrt (1 - x ^ 2 - y ^ 2) ∧
      0 < 1 - x ^ 2 - y ^ 2 ∧
      Dot (ProjectPoincToHyp ⟨x, y⟩) (ProjectPoincToHyp ⟨x, y⟩) = -1 ∧
      0 < (ProjectPoincToHyp ⟨x, y⟩).z ∧ 1 ≤ (ProjectPoincToHyp ⟨x, y⟩).z := by
  have hrad : 0 < 1 - x * x - y * y := by nlinarith
  have hpos : 0 < Real.sqrt (1 - x * x - y * y) := Real.sqrt_pos.mpr hrad
  have hsq : Real.sqrt (1 - x * x - y * y) ^ 2 = 1 - x * x - y * y := Real.sq_sqrt hrad.le
  have hle : Real.sqrt (1 - x * x - y * y) ≤ 1 := by
    nlinarith [sq_nonneg x, sq_nonneg y, sq_nonneg (Real.sqrt (1 - x * x - y * y) - 1)]
  have hz : 1 ≤ 1 / Real.sqrt (1 - x * x - y * y) := by
    rw [le_div_iff₀ hpos]; linarith
  refine ⟨?_, by linarith, ?_, ?_, ?_⟩
  · simp only [ProjectPoincToHyp, pow_two]
  · simp only [ProjectPoincToHyp, Dot, vec3.div_x, vec3.div_y, vec3.div_z]
    field_simp
    nlinarith
  · simp only [ProjectPoincToHyp, vec3.div_z]; linarith
  · simp only [ProjectPoincToHyp, vec3.div_z]; exact hz

theorem C10_lift_on_hyperboloid_witness :
    ((1 / 2 : ℝ) ^ 2 + (1 / 2 : ℝ) ^ 2 < 1) ∧
      (ProjectPoincToHyp ⟨1 / 2, 1 / 2⟩
          = (⟨1 / 2, 1 / 2, 1⟩ : vec3) / Real.sqrt (1 - (1 / 2 : ℝ) ^ 2 - (1 / 2 : ℝ) ^ 2) ∧
        0 < 1 - (1 / 2 : ℝ) ^ 2 - (1 / 2 : ℝ) ^ 2 ∧
        Dot (ProjectPoincToHyp ⟨1 / 2, 1 / 2⟩) (ProjectPoincToHyp ⟨1 / 2, 1 / 2⟩) = -1 ∧
        0 < (ProjectPoincToHyp ⟨1 / 2, 1 / 2⟩).z ∧ 1 ≤ (ProjectPoincToHyp ⟨1 / 2, 1 / 2⟩).z) :=
  ⟨by norm_num, C10_lift_on_hyperboloid (1 / 2) (1 / 2) (by norm_num)⟩

/-! ## Geodesics and rotations -/

/-- C3: for a valid `Hyp` and all reals `a`, `b`, advancing by `a` and then by `b` reaches the
position that advancing by `a + b` reaches. -/
theorem C3_geodesic_additivity (h : Hyp) (hv : h.valid) (a b : ℝ) :
    ((h.NewPoint a).NewPoint b).point = (h.NewPoint (a + b)).point := by
  have hva : (h.NewPoint a).valid := NewPoint_valid h a hv
  rw [NewPoint_eq (h.NewPoint a) b hva, NewPoint_eq h a hv, NewPoint_eq h (a + b) hv]
  simp only [Real.cosh_add, Real.sinh_add]
  ext <;> simp only [vec3.add_x, vec3.add_y, vec3.add_z, vec3.mul_x, vec3.mul_y, vec3.mul_z] <;>
    ring

theorem C3_geodesic_additivity_witness :
    (Hyp.mk ⟨0, 0, 1⟩ ⟨0, 1, 0⟩).valid ∧
      (((Hyp.mk ⟨0, 0, 1⟩ ⟨0, 1, 0⟩).NewPoint 1).NewPoint 2).point
        = ((Hyp.mk ⟨0, 0, 1⟩ ⟨0, 1, 0⟩).NewPoint (1 + 2)).point :=
  ⟨origin_valid, C3_geodesic_additivity _ origin_valid 1 2⟩

/-- C5: for a valid `Hyp` and every real angle, `RotateV0(angle)` followed by
`RotateV0(-angle)` gives back the original object: the direction `v0` is restored and the
position is unchanged. -/
theorem C5_rotation_inverse (h : Hyp) (hv : h.valid) (angle : ℝ) :
    ((h.RotateV0 angle).RotateV0 (-angle)).v0 = h.v0 ∧
      ((h.RotateV0 angle).RotateV0 (-angle)).point = h.point ∧
      (h.RotateV0 angle).point = h.point := by
  have hva : (h.RotateV0 angle).valid := RotateV0_valid h angle hv
  rw [RotateV0_eq (h.RotateV0 angle) (-angle) hva, RotateV0_eq h angle hv]
  obtain ⟨hp, hd, ht⟩ := hv
  have ht' : Dot h.v0 h.point = 0 := by rw [Dot_comm]; exact ht
  have hcc : Cross (Cross h.v0 h.point) h.point = h.v0 * (-1 : ℝ) + h.point * (-0 : ℝ) := by
    rw [Cross_Cross, hp, ht']
  have hcs := Real.cos_sq_add_sin_sq angle
  have hx := congrArg vec3.x hcc
  have hy := congrArg vec3.y hcc
  have hz := congrArg vec3.z hcc
  simp only [Cross, vec3.add_x, vec3.add_y, vec3.add_z, vec3.mul_x, vec3.mul_y, vec3.mul_z]
    at hx hy hz
  refine ⟨?_, rfl, rfl⟩
  simp only [Real.cos_neg, Real.sin_neg]
  ext
  · simp only [Cross, vec3.add_x, vec3.add_y, vec3.add_z, vec3.mul_x, vec3.mul_y, vec3.mul_z]
    linear_combination (-Real.sin angle ^ 2) * hx + h.v0.x * hcs
  · simp only [Cross, vec3.add_x, vec3.add_y, vec3.add_z, vec3.mul_x, vec3.mul_y, vec3.mul_z]
    linear_combination (-Real.sin angle ^ 2) * hy + h.v0.y * hcs
  · simp only [Cross, vec3.add_x, vec3.add_y, vec3.add_z, vec3.mul_x, vec3.mul_y, vec3.mul_z]
    linear_combination (-Real.sin angle ^ 2) * hz + h.v0.z * hcs

theorem C5_rotation_inverse_witness :
    (Hyp.mk ⟨0, 0, 1⟩ ⟨0, 1, 0⟩).valid ∧
      ((((Hyp.mk ⟨0, 0, 1⟩ ⟨0, 1, 0⟩).RotateV0 2).RotateV0 (-2)).v0
          = (Hyp.mk ⟨0, 0, 1⟩ ⟨0, 1, 0⟩).v0 ∧
        (((Hyp.mk ⟨0, 0, 1⟩ ⟨0, 1, 0⟩).RotateV0 2).RotateV0 (-2)).point
          = (Hyp.mk ⟨0, 0, 1⟩ ⟨0, 1, 0⟩).point ∧
        ((Hyp.mk ⟨0, 0, 1⟩ ⟨0, 1, 0⟩).RotateV0 2).point = (Hyp.mk ⟨0, 0, 1⟩ ⟨0, 1, 0⟩).point) :=
  ⟨origin_valid, C5_rotation_inverse _ origin_valid 2⟩

/-! ## The origin scenario -/

/-- The constructor on the planar origin gives the reference point. -/
theorem fromPoinc_origin (v0 : vec3) : Hyp.fromPoinc ⟨0, 0⟩ v0 = ⟨⟨0, 0, 1⟩, v0⟩ := by
  simp [Hyp.fromPoinc, ProjectPoincToHyp]
  ext <;> simp

/-- The half-argument formula behind the projection of a geodesic through the origin. -/
theorem sinh_div_cosh_add_one (t : ℝ) :
    Real.sinh t / (Real.cosh t + 1) = Real.tanh (t / 2) := by
  have hc : 0 < Real.cosh (t / 2) := Real.cosh_pos _
  have h1 : Real.sinh t = 2 * Real.sinh (t / 2) * Real.cosh (t / 2) := by
    rw [← Real.sinh_two_mul]; congr 1; ring
  have h2 : Real.cosh t = Real.cosh (t / 2) ^ 2 + Real.sinh (t / 2) ^ 2 := by
    rw [← Real.cosh_two_mul]; congr 1; ring
  have h3 := Real.cosh_sq (t / 2)
  rw [Real.tanh_eq_sinh_div_cosh, h1, h2]
  have h4 : Real.cosh (t / 2) ^ 2 + Real.sinh (t / 2) ^ 2 + 1 = 2 * Real.cosh (t / 2) ^ 2 := by
    linarith
  rw [h4]
  field_simp
  ring

/-- C9: the `Hyp` constructed from the planar point `(0, 0)` with direction `(0, 1, 0)` is valid;
advanced by `NewPoint(t)` its planar coordinate is `(0, tanh (t / 2))` for every real `t`, in
particular `(0, tanh (1 / 2))` for `t = 1`, a point of the positive `y` axis. -/
theorem C9_origin_scenario :
    (Hyp.fromPoinc ⟨0, 0⟩ ⟨0, 1, 0⟩).valid ∧
      (∀ t : ℝ, ((Hyp.fromPoinc ⟨0, 0⟩ ⟨0, 1, 0⟩).NewPoint t).ReturnPoinc
        = ⟨0, Real.tanh (t / 2)⟩) ∧
      ((Hyp.fromPoinc ⟨0, 0⟩ ⟨0, 1, 0⟩).NewPoint 1).ReturnPoinc = ⟨0, Real.tanh (1 / 2)⟩ ∧
      0 < Real.tanh (1 / 2) := by
  have hall : ∀ t : ℝ, ((Hyp.fromPoinc ⟨0, 0⟩ ⟨0, 1, 0⟩).NewPoint t).ReturnPoinc
      = ⟨0, Real.tanh (t / 2)⟩ := by
    intro t
    rw [fromPoinc_origin, NewPoint_eq _ t origin_valid]
    simp only [Hyp.ReturnPoinc, ProjectHypToPoinc, vec3.add_x, vec3.add_y, vec3.add_z,
      vec3.mul_x, vec3.mul_y, vec3.mul_z]
    ext
    · simp
    · simp only [zero_mul, one_mul, zero_add, add_zero]
      exact sinh_div_cosh_add_one t
  refine ⟨by rw [fromPoinc_origin]; exact origin_valid, hall, hall 1, ?_⟩
  rw [Real.tanh_eq_sinh_div_cosh]
  exact div_pos (Real.sinh_pos_iff.mpr (by norm_num)) (Real.cosh_pos _)

/-! ## The inverse hyperbolic cosine -/

theorem acoshf_arg_pos (x : ℝ) (hx : 1 ≤ x) : 0 < x + Real.sqrt (x ^ 2 - 1) := by
  have := Real.sqrt_nonneg (x ^ 2 - 1)
  linarith

theorem acoshf_arg_inv (x : ℝ) (hx : 1 ≤ x) :
    (x + Real.sqrt (x ^ 2 - 1))⁻¹ = x - Real.sqrt (x ^ 2 - 1) := by
  have hpos := acoshf_arg_pos x hx
  have hsq : Real.sqrt (x ^ 2 - 1) ^ 2 = x ^ 2 - 1 := Real.sq_sqrt (by nlinarith)
  apply inv_eq_of_mul_eq_one_right
  linear_combination -hsq

theorem cosh_acoshf (x : ℝ) (hx : 1 ≤ x) : Real.cosh (acoshf x) = x := by
  unfold acoshf
  rw [Real.cosh_log (acoshf_arg_pos x hx), acoshf_arg_inv x hx]
  ring

theorem sinh_acoshf (x : ℝ) (hx : 1 ≤ x) : Real.sinh (acoshf x) = Real.sqrt (x ^ 2 - 1) := by
  unfold acoshf
  rw [Real.sinh_log (acoshf_arg_pos x hx), acoshf_arg_inv x hx]
  ring

theorem acoshf_pos (x : ℝ) (hx : 1 < x) : 0 < acoshf x := by
  unfold acoshf
  apply Real.log_pos
  have := Real.sqrt_nonneg (x ^ 2 - 1)
  linarith

theorem acoshf_cosh (r : ℝ) (hr : 0 ≤ r) : acoshf (Real.cosh r) = r := by
  unfold acoshf
  have h1 : Real.cosh r ^ 2 - 1 = Real.sinh r ^ 2 := by rw [Real.cosh_sq]; ring
  rw [h1, Real.sqrt_sq (Real.sinh_nonneg_iff.mpr hr), Real.cosh_add_sinh, Real.log_exp]

theorem acoshf_one : acoshf 1 = 0 := by
  have := acoshf_cosh 0 le_rfl
  rwa [Real.cosh_zero] at this

/-! ## Two points of the upper sheet -/

theorem Dot_neg_left (a b : vec3) : Dot (-a) b = -Dot a b := by
  simp only [Dot, vec3.neg_x, vec3.neg_y, vec3.neg_z]; ring

/-- For two points of the upper sheet the argument of `acoshf` in `GetDistanceDirection` is at
least one, and it is one only when the two points are the same. -/
theorem upper_sheet_dot (p q : vec3) (hp : Dot p p = -1) (hq : Dot q q = -1)
    (hpz : 0 < p.z) (hqz : 0 < q.z) :
    1 ≤ Dot (-q) p ∧ (Dot (-q) p = 1 → p = q) := by
  rw [Dot_neg_left]
  simp only [Dot] at hp hq ⊢
  have hzz : 0 < p.z * q.z := mul_pos hpz hqz
  have key : (p.z * q.z) ^ 2 - (1 + (p.x * q.x + p.y * q.y)) ^ 2
      = (p.x - q.x) ^ 2 + (p.y - q.y) ^ 2 + (p.x * q.y - p.y * q.x) ^ 2 := by
    have e1 : p.z * p.z = 1 + p.x * p.x + p.y * p.y := by linarith
    have e2 : q.z * q.z = 1 + q.x * q.x + q.y * q.y := by linarith
    have e3 : (p.z * q.z) ^ 2 = (p.z * p.z) * (q.z * q.z) := by ring
    rw [e3, e1, e2]; ring
  have hge : 1 + (p.x * q.x + p.y * q.y) ≤ p.z * q.z := by
    by_contra hlt
    push_neg at hlt
    have : (p.z * q.z) ^ 2 < (1 + (p.x * q.x + p.y * q.y)) ^ 2 := by
      apply pow_lt_pow_left₀ hlt hzz.le (by norm_num)
    nlinarith [sq_nonneg (p.x - q.x), sq_nonneg (p.y - q.y),
      sq_nonneg (p.x * q.y - p.y * q.x)]
  refine ⟨by linarith, ?_⟩
  intro heq
  have hprod : p.z * q.z = 1 + (p.x * q.x + p.y * q.y) := by linarith
  have hzero : (p.x - q.x) ^ 2 + (p.y - q.y) ^ 2 + (p.x * q.y - p.y * q.x) ^ 2 = 0 := by
    rw [← key, hprod]; ring
  have hx : p.x - q.x = 0 := by
    have : (p.x - q.x) ^ 2 = 0 := by
      nlinarith [sq_nonneg (p.x - q.x), sq_nonneg (p.y - q.y),
        sq_nonneg (p.x * q.y - p.y * q.x)]
    exact pow_eq_zero_iff (by norm_num) |>.mp this
  have hy : p.y - q.y = 0 := by
    have : (p.y - q.y) ^ 2 = 0 := by
      nlinarith [sq_nonneg (p.x - q.x), sq_nonneg (p.y - q.y),
        sq_nonneg (p.x * q.y - p.y * q.x)]
    exact pow_eq_zero_iff (by norm_num) |>.mp this
  have hxe : p.x = q.x := by linarith
  have hye : p.y = q.y := by linarith
  have hze : p.z = q.z := by
    have h2 : p.z * p.z = q.z * q.z := by rw [hxe, hye] at hp; linarith
    nlinarith
  exact vec3.ext hxe hye hze

/-! ## Distance and direction between two points -/

theorem Dot_sub_left (a b c : vec3) : Dot (a - b) c = Dot a c - Dot b c := by
  simp only [Dot, vec3.sub_x, vec3.sub_y, vec3.sub_z]; ring

theorem Dot_sub_right (a b c : vec3) : Dot a (b - c) = Dot a b - Dot a c := by
  simp only [Dot, vec3.sub_x, vec3.sub_y, vec3.sub_z]; ring

theorem Dot_div_left (a b : vec3) (s : ℝ) : Dot (a / s) b = Dot a b / s := by
  simp only [Dot, vec3.div_x, vec3.div_y, vec3.div_z]; ring

theorem Dot_div_right (a b : vec3) (s : ℝ) : Dot a (b / s) = Dot a b / s := by
  simp only [Dot, vec3.div_x, vec3.div_y, vec3.div_z]; ring

/-- C4: for two valid `Hyp` values whose positions are distinct points of the upper sheet, the
argument of `acoshf` is greater than one and the divisor `sinhf(dist)` is positive, the
returned distance is positive, the returned direction is a unit tangent at `self`, and
advancing from `self` along that direction by that distance arrives at the position of
`other`. -/
theorem C4_distance_direction (self other : Hyp) (hs : self.valid) (ho : other.valid)
    (hsz : 0 < self.point.z) (hoz : 0 < other.point.z) (hne : self.point ≠ other.point) :
    1 < Dot (-other.point) self.point ∧
      0 < Real.sinh (self.GetDistanceDirection other).1 ∧
      0 < (self.GetDistanceDirection other).1 ∧
      Dot (self.GetDistanceDirection other).2 (self.GetDistanceDirection other).2 = 1 ∧
      Dot (self.GetDistanceDirection other).2 self.point = 0 ∧
      ((Hyp.mk self.point (self.GetDistanceDirection other).2).NewPoint
        (self.GetDistanceDirection other).1).point = other.point := by
  obtain ⟨hp, -, -⟩ := hs
  obtain ⟨hq, -, -⟩ := ho
  obtain ⟨hge, heq⟩ := upper_sheet_dot self.point other.point hp hq hsz hoz
  have hgt : 1 < Dot (-other.point) self.point :=
    lt_of_le_of_ne hge (fun e => hne (heq e.symm))
  have hqp : Dot other.point self.point = -Dot (-other.point) self.point := by
    rw [Dot_neg_left]; ring
  have hpq : Dot self.point other.point = -Dot (-other.point) self.point := by
    rw [Dot_comm, hqp]
  have hdist : (self.GetDistanceDirection other).1
      = acoshf (Dot (-other.point) self.point) := rfl
  have hdir0 : (self.GetDistanceDirection other).2
      = (other.point - self.point * Real.cosh (acoshf (Dot (-other.point) self.point)))
        / Real.sinh (acoshf (Dot (-other.point) self.point)) := rfl
  generalize Dot (-other.point) self.point = c at hge hgt hqp hpq hdist hdir0
  have hcosh : Real.cosh (acoshf c) = c := cosh_acoshf c hge
  have hrad : 0 < c ^ 2 - 1 := by nlinarith
  have hsinh : Real.sinh (acoshf c) = Real.sqrt (c ^ 2 - 1) := sinh_acoshf c hge
  have hspos : 0 < Real.sinh (acoshf c) := by rw [hsinh]; exact Real.sqrt_pos.mpr hrad
  have hssq : Real.sinh (acoshf c) ^ 2 = c ^ 2 - 1 := by rw [hsinh]; exact Real.sq_sqrt hrad.le
  have hdir : (self.GetDistanceDirection other).2
      = (other.point - self.point * c) / Real.sinh (acoshf c) := by
    rw [hdir0, hcosh]
  have hunit : Dot ((other.point - self.point * c) / Real.sinh (acoshf c))
      ((other.point - self.point * c) / Real.sinh (acoshf c)) = 1 := by
    simp only [Dot_div_left, Dot_div_right, Dot_sub_left, Dot_sub_right, Dot_mul_left,
      Dot_mul_right, hp, hq, hqp, hpq]
    field_simp
    nlinarith
  have htan : Dot ((other.point - self.point * c) / Real.sinh (acoshf c)) self.point = 0 := by
    simp only [Dot_div_left, Dot_sub_left, Dot_mul_left, hp, hqp]
    field_simp
  have htan' : Dot self.point ((other.point - self.point * c) / Real.sinh (acoshf c)) = 0 := by
    rw [Dot_comm]; exact htan
  have hval : (Hyp.mk self.point
      ((other.point - self.point * c) / Real.sinh (acoshf c))).valid := ⟨hp, hunit, htan'⟩
  rw [hdist, hdir]
  refine ⟨hgt, hspos, acoshf_pos c hgt, hunit, htan, ?_⟩
  rw [NewPoint_eq _ _ hval, hcosh]
  ext <;> simp only [vec3.add_x, vec3.add_y, vec3.add_z, vec3.mul_x, vec3.mul_y, vec3.mul_z,
    vec3.sub_x, vec3.sub_y, vec3.sub_z, vec3.div_x, vec3.div_y, vec3.div_z] <;>
    field_simp

theorem C4_distance_direction_witness :
    ((Hyp.mk ⟨0, 0, 1⟩ ⟨0, 1, 0⟩).valid ∧ (Hyp.mk ⟨0, 3 / 4, 5 / 4⟩ ⟨0, 5 / 4, 3 / 4⟩).valid ∧
      (0 : ℝ) < (Hyp.mk ⟨0, 0, 1⟩ ⟨0, 1, 0⟩).point.z ∧
      (0 : ℝ) < (Hyp.mk ⟨0, 3 / 4, 5 / 4⟩ ⟨0, 5 / 4, 3 / 4⟩).point.z ∧
      (Hyp.mk ⟨0, 0, 1⟩ ⟨0, 1, 0⟩).point ≠ (Hyp.mk ⟨0, 3 / 4, 5 / 4⟩ ⟨0, 5 / 4, 3 / 4⟩).point) ∧
    (1 < Dot (-(Hyp.mk ⟨0, 3 / 4, 5 / 4⟩ ⟨0, 5 / 4, 3 / 4⟩).point)
        (Hyp.mk ⟨0, 0, 1⟩ ⟨0, 1, 0⟩).point ∧
      0 < Real.sinh ((Hyp.mk ⟨0, 0, 1⟩ ⟨0, 1, 0⟩).GetDistanceDirection
        (Hyp.mk ⟨0, 3 / 4, 5 / 4⟩ ⟨0, 5 / 4, 3 / 4⟩)).1 ∧
      0 < ((Hyp.mk ⟨0, 0, 1⟩ ⟨0, 1, 0⟩).GetDistanceDirection
        (Hyp.mk ⟨0, 3 / 4, 5 / 4⟩ ⟨0, 5 / 4, 3 / 4⟩)).1 ∧
      Dot ((Hyp.mk ⟨0, 0, 1⟩ ⟨0, 1, 0⟩).GetDistanceDirection
          (Hyp.mk ⟨0, 3 / 4, 5 / 4⟩ ⟨0, 5 / 4, 3 / 4⟩)).2
        ((Hyp.mk ⟨0, 0, 1⟩ ⟨0, 1, 0⟩).GetDistanceDirection
          (Hyp.mk ⟨0, 3 / 4, 5 / 4⟩ ⟨0, 5 / 4, 3 / 4⟩)).2 = 1 ∧
      Dot ((Hyp.mk ⟨0, 0, 1⟩ ⟨0, 1, 0⟩).GetDistanceDirection
          (Hyp.mk ⟨0, 3 / 4, 5 / 4⟩ ⟨0, 5 / 4, 3 / 4⟩)).2
        (Hyp.mk ⟨0, 0, 1⟩ ⟨0, 1, 0⟩).point = 0 ∧
      ((Hyp.mk (Hyp.mk ⟨0, 0, 1⟩ ⟨0, 1, 0⟩).point
          ((Hyp.mk ⟨0, 0, 1⟩ ⟨0, 1, 0⟩).GetDistanceDirection
            (Hyp.mk ⟨0, 3 / 4, 5 / 4⟩ ⟨0, 5 / 4, 3 / 4⟩)).2).NewPoint
        ((Hyp.mk ⟨0, 0, 1⟩ ⟨0, 1, 0⟩).GetDistanceDirection
          (Hyp.mk ⟨0, 3 / 4, 5 / 4⟩ ⟨0, 5 / 4, 3 / 4⟩)).1).point
        = (Hyp.mk ⟨0, 3 / 4, 5 / 4⟩ ⟨0, 5 / 4, 3 / 4⟩).point) :=
  have hv : (Hyp.mk ⟨0, 3 / 4, 5 / 4⟩ ⟨0, 5 / 4, 3 / 4⟩).valid := by
    simp only [Hyp.valid, Dot]; norm_num
  have hz1 : (0 : ℝ) < (Hyp.mk ⟨0, 0, 1⟩ ⟨0, 1, 0⟩).point.z := by norm_num
  have hz2 : (0 : ℝ) < (Hyp.mk ⟨0, 3 / 4, 5 / 4⟩ ⟨0, 5 / 4, 3 / 4⟩).point.z := by norm_num
  have hne : (Hyp.mk ⟨0, 0, 1⟩ ⟨0, 1, 0⟩).point
      ≠ (Hyp.mk ⟨0, 3 / 4, 5 / 4⟩ ⟨0, 5 / 4, 3 / 4⟩).point := by
    intro e
    have := congrArg vec3.z e
    norm_num at this
  ⟨⟨origin_valid, hv, hz1, hz2, hne⟩,
    C4_distance_direction _ _ origin_valid hv hz1 hz2 hne⟩

/-! ## Boundary samples of a disk -/

/-- The distance that `GetDistanceDirection` returns from a valid `Hyp` to the point reached by
`CreateNewPointDelta(dist, rot)` is `dist`, for every non-negative `dist` and every `rot`. -/
theorem distance_CreateNewPointDelta (h : Hyp) (hv : h.valid) (dist rot : ℝ) (hd : 0 ≤ dist) :
    (h.GetDistanceDirection (h.CreateNewPointDelta dist rot)).1 = dist := by
  have hr : (h.RotateV0 rot).valid := RotateV0_valid h rot hv
  have hpt : (h.RotateV0 rot).point = h.point := rfl
  obtain ⟨hp, -, ht⟩ := hr
  have ht' : Dot (h.RotateV0 rot).v0 h.point = 0 := by rw [Dot_comm, ← hpt]; exact ht
  have hpp : Dot h.point h.point = -1 := hv.1
  show acoshf (Dot (-((h.RotateV0 rot).NewPoint dist).point) h.point) = dist
  rw [NewPoint_eq _ dist (RotateV0_valid h rot hv), hpt]
  simp only [Dot_neg_left, Dot_add_left, Dot_mul_left, hpp, ht']
  rw [show -(Real.cosh dist * -1 + Real.sinh dist * 0) = Real.cosh dist by ring]
  exact acoshf_cosh dist hd

/-- C6: for every disk with a valid centre and a radius `r ≥ 0`, and every sample index `i`
(in particular `1 ≤ i ≤ 100`), the boundary sample
`CreateNewPointDelta(r, 2π / 100 * i)` that `HypCircle::Refresh` uses is at hyperbolic distance
exactly `r` from the centre: `GetDistanceDirection` from the centre to the sample returns `r`. -/
theorem C6_boundary_sampling (c : HypCircle) (hv : c.pos.valid) (hr : 0 ≤ c.radius) (i : ℕ) :
    c.temp i = c.pos.CreateNewPointDelta c.radius (2 * Real.pi * (i : ℝ) / 100) ∧
      (c.pos.GetDistanceDirection (c.temp i)).1 = c.radius := by
  have hang : Real.pi * 2 / ((db : ℕ) : ℝ) * (i : ℝ) = 2 * Real.pi * (i : ℝ) / 100 := by
    simp only [db]; push_cast; ring
  refine ⟨?_, ?_⟩
  · unfold HypCircle.temp; rw [hang]
  · exact distance_CreateNewPointDelta c.pos hv c.radius _ hr

theorem C6_boundary_sampling_witness :
    ((HypCircle.mk (1 / 5) (Hyp.mk ⟨0, 0, 1⟩ ⟨0, 1, 0⟩)).pos.valid ∧
      (0 : ℝ) ≤ (HypCircle.mk (1 / 5) (Hyp.mk ⟨0, 0, 1⟩ ⟨0, 1, 0⟩)).radius) ∧
    ((HypCircle.mk (1 / 5) (Hyp.mk ⟨0, 0, 1⟩ ⟨0, 1, 0⟩)).temp 7
        = (HypCircle.mk (1 / 5) (Hyp.mk ⟨0, 0, 1⟩ ⟨0, 1, 0⟩)).pos.CreateNewPointDelta
          (HypCircle.mk (1 / 5) (Hyp.mk ⟨0, 0, 1⟩ ⟨0, 1, 0⟩)).radius
          (2 * Real.pi * ((7 : ℕ) : ℝ) / 100) ∧
      ((HypCircle.mk (1 / 5) (Hyp.mk ⟨0, 0, 1⟩ ⟨0, 1, 0⟩)).pos.GetDistanceDirection
        ((HypCircle.mk (1 / 5) (Hyp.mk ⟨0, 0, 1⟩ ⟨0, 1, 0⟩)).temp 7)).1
        = (HypCircle.mk (1 / 5) (Hyp.mk ⟨0, 0, 1⟩ ⟨0, 1, 0⟩)).radius) :=
  have hr : (0 : ℝ) ≤ (HypCircle.mk (1 / 5) (Hyp.mk ⟨0, 0, 1⟩ ⟨0, 1, 0⟩)).radius := by
    norm_num
  ⟨⟨origin_valid, hr⟩, C6_boundary_sampling _ origin_valid hr 7⟩

/-! ## Inputs outside the domain -/

/-- C7, refuted on the code: the planar point `(2, 0)` lies outside the unit disk, and the lift,
the constructor `Hyp(vec2, vec3)` and `SetPoint` all return to their caller with the computed
value; none of them reports an error. -/
theorem C7_lift_not_rejected :
    ((2 : ℝ) ^ 2 + (0 : ℝ) ^ 2 ≥ 1) ∧
      ProjectPoincToHyp_outcome ⟨2, 0⟩ = Except.ok (ProjectPoincToHyp ⟨2, 0⟩) ∧
      Hyp.fromPoinc_outcome ⟨2, 0⟩ ⟨0, 1, 0⟩ = Except.ok (Hyp.fromPoinc ⟨2, 0⟩ ⟨0, 1, 0⟩) ∧
      (Hyp.mk ⟨0, 0, 1⟩ ⟨0, 1, 0⟩).SetPoint_outcome ⟨2, 0⟩
        = Except.ok ((Hyp.mk ⟨0, 0, 1⟩ ⟨0, 1, 0⟩).SetPoint ⟨2, 0⟩) ∧
      ProjectPoincToHyp_outcome ⟨2, 0⟩ ≠ Except.error HypError.DomainError :=
  ⟨by norm_num, rfl, rfl, rfl, by simp [ProjectPoincToHyp_outcome]⟩

/-- C7 as amended: for every planar point with `x² + y² ≥ 1` the lift is not rejected: the
lift, the constructor `Hyp(vec2, vec3)` and `SetPoint` return to their caller the quotient
`(x, y, 1) / sqrt (1 - x² - y²)` (stored as the position), although its radicand is not
positive, so that the quotient is not a point of the hyperboloid. -/
theorem C7_lift_unguarded (point : vec2) (v0 : vec3) (h : Hyp)
    (hout : point.x ^ 2 + point.y ^ 2 ≥ 1) :
    ProjectPoincToHyp_outcome point
        = Except.ok ((⟨point.x, point.y, 1⟩ : vec3)
          / Real.sqrt (1 - point.x * point.x - point.y * point.y)) ∧
      Hyp.fromPoinc_outcome point v0 = Except.ok ⟨ProjectPoincToHyp point, v0⟩ ∧
      h.SetPoint_outcome point = Except.ok ⟨ProjectPoincToHyp point, h.v0⟩ ∧
      1 - point.x * point.x - point.y * point.y ≤ 0 ∧
      Dot (ProjectPoincToHyp point) (ProjectPoincToHyp point) ≠ -1 := by
  have hrad : 1 - point.x * point.x - point.y * point.y ≤ 0 := by nlinarith
  refine ⟨rfl, rfl, rfl, hrad, ?_⟩
  simp only [ProjectPoincToHyp, Real.sqrt_eq_zero_of_nonpos hrad, Dot, vec3.div_x, vec3.div_y,
    vec3.div_z]
  norm_num

theorem C7_lift_unguarded_witness :
    ((vec2.mk 2 0).x ^ 2 + (vec2.mk 2 0).y ^ 2 ≥ 1) ∧
      (ProjectPoincToHyp_outcome ⟨2, 0⟩
          = Except.ok ((⟨(vec2.mk 2 0).x, (vec2.mk 2 0).y, 1⟩ : vec3)
            / Real.sqrt (1 - (vec2.mk 2 0).x * (vec2.mk 2 0).x
              - (vec2.mk 2 0).y * (vec2.mk 2 0).y)) ∧
        Hyp.fromPoinc_outcome ⟨2, 0⟩ ⟨0, 1, 0⟩
          = Except.ok ⟨ProjectPoincToHyp ⟨2, 0⟩, ⟨0, 1, 0⟩⟩ ∧
        (Hyp.mk ⟨0, 0, 1⟩ ⟨0, 1, 0⟩).SetPoint_outcome ⟨2, 0⟩
          = Except.ok ⟨ProjectPoincToHyp ⟨2, 0⟩, (Hyp.mk ⟨0, 0, 1⟩ ⟨0, 1, 0⟩).v0⟩ ∧
        1 - (vec2.mk 2 0).x * (vec2.mk 2 0).x - (vec2.mk 2 0).y * (vec2.mk 2 0).y ≤ 0 ∧
        Dot (ProjectPoincToHyp ⟨2, 0⟩) (ProjectPoincToHyp ⟨2, 0⟩) ≠ -1) :=
  have hout : (vec2.mk 2 0).x ^ 2 + (vec2.mk 2 0).y ^ 2 ≥ 1 := by norm_num
  ⟨hout, C7_lift_unguarded ⟨2, 0⟩ ⟨0, 1, 0⟩ (Hyp.mk ⟨0, 0, 1⟩ ⟨0, 1, 0⟩) hout⟩

/-! ## The degenerate query -/

/-- For a valid `Hyp` and a second one at the same position, `GetDistanceDirection` computes the
distance `0`, the numerator of the direction is the zero vector and its divisor
`sinhf(dist)` is `0`. -/
theorem coincident_query (p q : Hyp) (hv : p.valid) (hq : q.point = p.point) :
    (p.GetDistanceDirection q).1 = 0 ∧
      Real.sinh (p.GetDistanceDirection q).1 = 0 ∧
      q.point - p.point * Real.cosh (p.GetDistanceDirection q).1 = ⟨0, 0, 0⟩ := by
  have hd : (p.GetDistanceDirection q).1 = 0 := by
    show acoshf (Dot (-q.point) p.point) = 0
    rw [hq, Dot_neg_left, hv.1, neg_neg, acoshf_one]
  rw [hd, Real.sinh_zero, Real.cosh_zero, hq]
  refine ⟨rfl, rfl, ?_⟩
  ext <;> simp

/-- C8, refuted on the code: for the valid reference point queried against itself the divisor
`sinhf(dist)` of the direction is zero, and the quotient is taken all the same: no fallback
value is returned. -/
theorem C8_degenerate_query_unguarded :
    (Hyp.mk ⟨0, 0, 1⟩ ⟨0, 1, 0⟩).valid ∧
      Real.sinh ((Hyp.mk ⟨0, 0, 1⟩ ⟨0, 1, 0⟩).GetDistanceDirection
        (Hyp.mk ⟨0, 0, 1⟩ ⟨0, 1, 0⟩)).1 = 0 ∧
      (Hyp.mk ⟨0, 0, 1⟩ ⟨0, 1, 0⟩).GetDistanceDirectionChecked (Hyp.mk ⟨0, 0, 1⟩ ⟨0, 1, 0⟩)
        = none ∧
      (Hyp.mk ⟨0, 0, 1⟩ ⟨0, 1, 0⟩).GetDistanceDirectionChecked (Hyp.mk ⟨0, 0, 1⟩ ⟨0, 1, 0⟩)
        ≠ some (0, ⟨0, 0, 0⟩) := by
  have h := coincident_query (Hyp.mk ⟨0, 0, 1⟩ ⟨0, 1, 0⟩) (Hyp.mk ⟨0, 0, 1⟩ ⟨0, 1, 0⟩)
    origin_valid rfl
  have hs : Real.sinh (acoshf (Dot (-(Hyp.mk ⟨0, 0, 1⟩ ⟨0, 1, 0⟩).point)
      (Hyp.mk ⟨0, 0, 1⟩ ⟨0, 1, 0⟩).point)) = 0 := h.2.1
  have hn : (Hyp.mk ⟨0, 0, 1⟩ ⟨0, 1, 0⟩).GetDistanceDirectionChecked
      (Hyp.mk ⟨0, 0, 1⟩ ⟨0, 1, 0⟩) = none := by
    simp only [Hyp.GetDistanceDirectionChecked, vec3.divChecked, hs, if_true, Option.map_none']
  exact ⟨origin_valid, h.2.1, hn, by rw [hn]; simp⟩

/-- C8 as amended: for a valid `Hyp` `p` and a `q` at the same position, `GetDistanceDirection`
returns the distance `0` and computes the direction as the quotient of the zero vector by
`sinhf(0) = 0`, with no test of the distance: the checked quotient has no value. -/
theorem C8_degenerate_query (p q : Hyp) (hv : p.valid) (hq : q.point = p.point) :
    (p.GetDistanceDirection q).1 = 0 ∧
      Real.sinh (p.GetDistanceDirection q).1 = 0 ∧
      q.point - p.point * Real.cosh (p.GetDistanceDirection q).1 = ⟨0, 0, 0⟩ ∧
      p.GetDistanceDirectionChecked q = none := by
  obtain ⟨h1, h2, h3⟩ := coincident_query p q hv hq
  have hs : Real.sinh (acoshf (Dot (-q.point) p.point)) = 0 := h2
  refine ⟨h1, h2, h3, ?_⟩
  simp only [Hyp.GetDistanceDirectionChecked, vec3.divChecked, hs, if_true, Option.map_none']

theorem C8_degenerate_query_witness :
    ((Hyp.mk ⟨0, 3 / 4, 5 / 4⟩ ⟨0, 5 / 4, 3 / 4⟩).valid ∧
      (Hyp.mk ⟨0, 3 / 4, 5 / 4⟩ ⟨1, 0, 0⟩).point
        = (Hyp.mk ⟨0, 3 / 4, 5 / 4⟩ ⟨0, 5 / 4, 3 / 4⟩).point) ∧
    (((Hyp.mk ⟨0, 3 / 4, 5 / 4⟩ ⟨0, 5 / 4, 3 / 4⟩).GetDistanceDirection
        (Hyp.mk ⟨0, 3 / 4, 5 / 4⟩ ⟨1, 0, 0⟩)).1 = 0 ∧
      Real.sinh ((Hyp.mk ⟨0, 3 / 4, 5 / 4⟩ ⟨0, 5 / 4, 3 / 4⟩).GetDistanceDirection
        (Hyp.mk ⟨0, 3 / 4, 5 / 4⟩ ⟨1, 0, 0⟩)).1 = 0 ∧
      (Hyp.mk ⟨0, 3 / 4, 5 / 4⟩ ⟨1, 0, 0⟩).point
          - (Hyp.mk ⟨0, 3 / 4, 5 / 4⟩ ⟨0, 5 / 4, 3 / 4⟩).point
            * Real.cosh ((Hyp.mk ⟨0, 3 / 4, 5 / 4⟩ ⟨0, 5 / 4, 3 / 4⟩).GetDistanceDirection
              (Hyp.mk ⟨0, 3 / 4, 5 / 4⟩ ⟨1, 0, 0⟩)).1 = ⟨0, 0, 0⟩ ∧
      (Hyp.mk ⟨0, 3 / 4, 5 / 4⟩ ⟨0, 5 / 4, 3 / 4⟩).GetDistanceDirectionChecked
        (Hyp.mk ⟨0, 3 / 4, 5 / 4⟩ ⟨1, 0, 0⟩) = none) :=
  have hv : (Hyp.mk ⟨0, 3 / 4, 5 / 4⟩ ⟨0, 5 / 4, 3 / 4⟩).valid := by
    simp only [Hyp.valid, Dot]; norm_num
  ⟨⟨hv, rfl⟩, C8_degenerate_query _ _ hv rfl⟩

/-! ## Rotation by a sum of angles -/

/-- On a valid `Hyp` the rotation by the angle zero changes nothing. -/
theorem RotateV0_zero (h : Hyp) (hv : h.valid) : h.RotateV0 0 = h := by
  rw [RotateV0_eq h 0 hv]
  ext <;> simp

/-- On a valid `Hyp` a rotation by `a` followed by a rotation by `b` is the rotation by
`a + b`. -/
theorem RotateV0_add (h : Hyp) (hv : h.valid) (a b : ℝ) :
    (h.RotateV0 a).RotateV0 b = h.RotateV0 (a + b) := by
  have hva : (h.RotateV0 a).valid := RotateV0_valid h a hv
  rw [RotateV0_eq (h.RotateV0 a) b hva, RotateV0_eq h a hv, RotateV0_eq h (a + b) hv]
  obtain ⟨hp, hd, ht⟩ := hv
  have ht' : Dot h.v0 h.point = 0 := by rw [Dot_comm]; exact ht
  have hcc : Cross (Cross h.v0 h.point) h.point = h.v0 * (-1 : ℝ) + h.point * (-0 : ℝ) := by
    rw [Cross_Cross, hp, ht']
  have hx := congrArg vec3.x hcc
  have hy := congrArg vec3.y hcc
  have hz := congrArg vec3.z hcc
  simp only [Cross, vec3.add_x, vec3.add_y, vec3.add_z, vec3.mul_x, vec3.mul_y, vec3.mul_z]
    at hx hy hz
  simp only [Real.cos_add, Real.sin_add]
  ext
  · rfl
  · rfl
  · rfl
  · simp only [Cross, vec3.add_x, vec3.add_y, vec3.add_z, vec3.mul_x, vec3.mul_y, vec3.mul_z]
    linear_combination (Real.sin a * Real.sin b) * hx
  · simp only [Cross, vec3.add_x, vec3.add_y, vec3.add_z, vec3.mul_x, vec3.mul_y, vec3.mul_z]
    linear_combination (Real.sin a * Real.sin b) * hy
  · simp only [Cross, vec3.add_x, vec3.add_y, vec3.add_z, vec3.mul_x, vec3.mul_y, vec3.mul_z]
    linear_combination (Real.sin a * Real.sin b) * hz

/-- Repeating the rotation by `a` on a valid `Hyp` `n` times is the rotation by `n * a`. -/
theorem RotateV0_iterate (h : Hyp) (hv : h.valid) (a : ℝ) (n : ℕ) :
    (fun g : Hyp => g.RotateV0 a)^[n] h = h.RotateV0 ((n : ℝ) * a) := by
  induction n with
  | zero => simp [RotateV0_zero h hv]
  | succ n ih =>
    rw [Function.iterate_succ_apply', ih, RotateV0_add h hv]
    congr 1
    push_cast
    ring

/-- C11: for every valid `Hyp` and every integer `N ≥ 1`, applying `RotateV0(2π / N)` `N` times
in succession gives back the object: the direction `v0` is the original one (and the position
has not changed). -/
theorem C11_rotation_periodicity (h : Hyp) (hv : h.valid) (N : ℕ) (hN : 1 ≤ N) :
    ((fun g : Hyp => g.RotateV0 (2 * Real.pi / (N : ℝ)))^[N] h).v0 = h.v0 ∧
      ((fun g : Hyp => g.RotateV0 (2 * Real.pi / (N : ℝ)))^[N] h).point = h.point := by
  have hN0 : (N : ℝ) ≠ 0 := by
    have : (0 : ℝ) < N := by exact_mod_cast hN
    exact this.ne'
  have hang : (N : ℝ) * (2 * Real.pi / (N : ℝ)) = 2 * Real.pi := by
    field_simp
  rw [RotateV0_iterate h hv, hang, RotateV0_eq h _ hv, Real.cos_two_pi, Real.sin_two_pi]
  refine ⟨?_, rfl⟩
  ext <;> simp

theorem C11_rotation_periodicity_witness :
    ((Hyp.mk ⟨0, 0, 1⟩ ⟨0, 1, 0⟩).valid ∧ 1 ≤ 7) ∧
      (((fun g : Hyp => g.RotateV0 (2 * Real.pi / ((7 : ℕ) : ℝ)))^[7]
          (Hyp.mk ⟨0, 0, 1⟩ ⟨0, 1, 0⟩)).v0 = (Hyp.mk ⟨0, 0, 1⟩ ⟨0, 1, 0⟩).v0 ∧
        ((fun g : Hyp => g.RotateV0 (2 * Real.pi / ((7 : ℕ) : ℝ)))^[7]
          (Hyp.mk ⟨0, 0, 1⟩ ⟨0, 1, 0⟩)).point = (Hyp.mk ⟨0, 0, 1⟩ ⟨0, 1, 0⟩).point) :=
  ⟨⟨origin_valid, by norm_num⟩, C11_rotation_periodicity _ origin_valid 7 (by norm_num)⟩

/-! ## Distance symmetry -/

/-- C15: the distance that `p.GetDistanceDirection(q)` returns equals the distance that
`q.GetDistanceDirection(p)` returns, for every two `Hyp` values, in particular for two valid
ones with distinct positions. -/
theorem C15_distance_symmetry (p q : Hyp) :
    (p.GetDistanceDirection q).1 = (q.GetDistanceDirection p).1 := by
  show acoshf (Dot (-q.point) p.point) = acoshf (Dot (-p.point) q.point)
  rw [Dot_neg_left, Dot_neg_left, Dot_comm]

/-! ## Correction of an approximate pair -/

/-- The divisor of `VectorLambda` is one on the hyperboloid. -/
theorem VectorLambda_of_hyperboloid (v p : vec3) (hp : Dot p p = -1) :
    VectorLambda v p = Dot v p := by
  have hb : p.z * p.z - p.x * p.x - p.y * p.y = 1 := by
    simp only [Dot] at hp; linarith
  simp only [VectorLambda, hb, div_one]

theorem Dot_smul_right (a b : vec3) (s : ℝ) : Dot a (s * b) = s * Dot a b := by
  simp only [Dot, vec3.smul_x, vec3.smul_y, vec3.smul_z]; ring

theorem Dot_smul_left (a b : vec3) (s : ℝ) : Dot (s * a) b = s * Dot a b := by
  simp only [Dot, vec3.smul_x, vec3.smul_y, vec3.smul_z]; ring

/-- The point that `CorrectPAV0` returns lies on the hyperboloid when the given one has a
negative Lorentz norm. -/
theorem PointLambda_on_hyperboloid (p : vec3) (hp : Dot p p < 0) :
    0 < -1 / Dot p p ∧ Dot (p * PointLambda p) (p * PointLambda p) = -1 := by
  have hpos : 0 < -1 / Dot p p := div_pos_of_neg_of_neg (by norm_num) hp
  refine ⟨hpos, ?_⟩
  have hsq : PointLambda p * PointLambda p = -1 / Dot p p := Real.mul_self_sqrt hpos.le
  rw [Dot_mul_left, Dot_mul_right, ← mul_assoc, hsq]
  field_simp [hp.ne]

/-- What `CorrectPAV0` returns on a pair whose point has a negative Lorentz norm: a point of
the hyperboloid and a vector orthogonal to it. -/
theorem CorrectPAV0_projects (p v : vec3) (hp : Dot p p < 0) :
    Dot (CorrectPAV0 p v).1 (CorrectPAV0 p v).1 = -1 ∧
      Dot (CorrectPAV0 p v).1 (CorrectPAV0 p v).2 = 0 := by
  have h1 := (PointLambda_on_hyperboloid p hp).2
  refine ⟨h1, ?_⟩
  show Dot (p * PointLambda p)
    (v + VectorLambda v (p * PointLambda p) * (p * PointLambda p)) = 0
  rw [VectorLambda_of_hyperboloid _ _ h1, Dot_add_right, Dot_smul_right, h1,
    Dot_comm v (p * PointLambda p)]
  ring

/-- C17: for a pair `(p, v)` with `⟨p,p⟩ < 0` and any `v`, `CorrectPAV0` returns
`p' = p * PointLambda(p)` and `v' = v + VectorLambda(v, p') * p'` with `⟨p',p'⟩ = -1` and
`⟨p',v'⟩ = 0` (the radicand of `PointLambda` is positive), and applying it again changes
nothing; on a pair that already has `⟨p,p⟩ = -1` and `⟨p,v⟩ = 0` it changes nothing. -/
theorem C17_correction_is_projection (p v : vec3) :
    (Dot p p < 0 →
      (CorrectPAV0 p v).1 = p * PointLambda p ∧
      (CorrectPAV0 p v).2
        = v + VectorLambda v (p * PointLambda p) * (p * PointLambda p) ∧
      0 < -1 / Dot p p ∧
      Dot (CorrectPAV0 p v).1 (CorrectPAV0 p v).1 = -1 ∧
      Dot (CorrectPAV0 p v).1 (CorrectPAV0 p v).2 = 0 ∧
      CorrectPAV0 (CorrectPAV0 p v).1 (CorrectPAV0 p v).2 = CorrectPAV0 p v) ∧
    (Dot p p = -1 → Dot p v = 0 → CorrectPAV0 p v = (p, v)) := by
  constructor
  · intro hp
    obtain ⟨h1, h2⟩ := CorrectPAV0_projects p v hp
    refine ⟨rfl, rfl, (PointLambda_on_hyperboloid p hp).1, h1, h2, ?_⟩
    exact CorrectPAV0_of_valid _ _ h1 (by rw [Dot_comm]; exact h2)
  · intro hp hv
    exact CorrectPAV0_of_valid p v hp (by rw [Dot_comm]; exact hv)

theorem C17_correction_is_projection_witness :
    (Dot (vec3.mk 0 0 2) (vec3.mk 0 0 2) < 0 ∧
      Dot (CorrectPAV0 (vec3.mk 0 0 2) (vec3.mk 1 1 1)).1
        (CorrectPAV0 (vec3.mk 0 0 2) (vec3.mk 1 1 1)).2 = 0) ∧
    ((Dot (vec3.mk 0 0 1) (vec3.mk 0 0 1) = -1 ∧ Dot (vec3.mk 0 0 1) (vec3.mk 0 1 0) = 0) ∧
      CorrectPAV0 (vec3.mk 0 0 1) (vec3.mk 0 1 0) = (vec3.mk 0 0 1, vec3.mk 0 1 0)) :=
  have h1 : Dot (vec3.mk 0 0 2) (vec3.mk 0 0 2) < 0 := by simp only [Dot]; norm_num
  have h2 : Dot (vec3.mk 0 0 1) (vec3.mk 0 0 1) = -1 := by simp only [Dot]; norm_num
  have h3 : Dot (vec3.mk 0 0 1) (vec3.mk 0 1 0) = 0 := by simp only [Dot]; norm_num
  ⟨⟨h1, ((C17_correction_is_projection (vec3.mk 0 0 2) (vec3.mk 1 1 1)).1 h1).2.2.2.2.1⟩,
    ⟨⟨h2, h3⟩, (C17_correction_is_projection (vec3.mk 0 0 1) (vec3.mk 0 1 0)).2 h2 h3⟩⟩

/-! ## Rotation of a direction guess -/

/-- The Lorentz form with a normalised first argument. -/
theorem Dot_NormalizeHyp_left (v b : vec3) :
    Dot (NormalizeHyp v) b = 1 / len v * Dot v b := by
  unfold NormalizeHyp
  rw [Dot_mul_left]

/-- A vector of positive Lorentz norm is normalised to a unit vector. -/
theorem NormalizeHyp_unit (v : vec3) (h : 0 < Dot v v) :
    Dot (NormalizeHyp v) (NormalizeHyp v) = 1 := by
  have hl : 0 < len v := by rw [len_eq]; exact Real.sqrt_pos.mpr h
  have hsq : len v * len v = Dot v v := by rw [len_eq]; exact Real.mul_self_sqrt h.le
  unfold NormalizeHyp
  rw [Dot_mul_left, Dot_mul_right, ← hsq]
  field_simp

/-- `RotateV0` on a point of the hyperboloid with a direction guess of positive Lorentz norm:
the stored direction becomes a unit tangent, the position stays. -/
theorem RotateV0_corrects (h : Hyp) (hp : Dot h.point h.point = -1) (hv : 0 < Dot h.v0 h.v0)
    (angle : ℝ) : (h.RotateV0 angle).valid ∧ (h.RotateV0 angle).point = h.point := by
  have hu : Dot (NormalizeHyp h.v0) (NormalizeHyp h.v0) = 1 := NormalizeHyp_unit _ hv
  have hcpos : 0 < Dot (Cross (NormalizeHyp h.v0) h.point) (Cross (NormalizeHyp h.v0) h.point) := by
    rw [Dot_Cross_self, hu, hp]
    nlinarith [sq_nonneg (Dot (NormalizeHyp h.v0) h.point)]
  have hw : Dot (NormalizeHyp (Cross (NormalizeHyp h.v0) h.point))
      (NormalizeHyp (Cross (NormalizeHyp h.v0) h.point)) = 1 := NormalizeHyp_unit _ hcpos
  have hwu : Dot (NormalizeHyp (Cross (NormalizeHyp h.v0) h.point)) (NormalizeHyp h.v0) = 0 := by
    rw [Dot_NormalizeHyp_left, Dot_Cross_left, mul_zero]
  have huw : Dot (NormalizeHyp h.v0) (NormalizeHyp (Cross (NormalizeHyp h.v0) h.point)) = 0 := by
    rw [Dot_comm]; exact hwu
  have hcs := Real.cos_sq_add_sin_sq angle
  have hn : Dot (NormalizeHyp h.v0 * Real.cos angle
        + NormalizeHyp (Cross (NormalizeHyp h.v0) h.point) * Real.sin angle)
      (NormalizeHyp h.v0 * Real.cos angle
        + NormalizeHyp (Cross (NormalizeHyp h.v0) h.point) * Real.sin angle) = 1 := by
    simp only [Dot_add_left, Dot_add_right, Dot_mul_left, Dot_mul_right, hu, hw, hwu, huw]
    nlinarith
  have hrv : RotateVector h.v0 h.point angle
      = NormalizeHyp h.v0 * Real.cos angle
        + NormalizeHyp (Cross (NormalizeHyp h.v0) h.point) * Real.sin angle := by
    unfold RotateVector
    simp only [NormalizeHyp_of_unit _ hu, NormalizeHyp_of_unit _ hn]
  have hv2 : 0 < Dot (RotateVector h.v0 h.point angle
        + h.point * VectorLambda (RotateVector h.v0 h.point angle) h.point)
      (RotateVector h.v0 h.point angle
        + h.point * VectorLambda (RotateVector h.v0 h.point angle) h.point) := by
    rw [VectorLambda_of_hyperboloid _ _ hp]
    simp only [Dot_add_left, Dot_add_right, Dot_mul_left, Dot_mul_right, hp]
    rw [Dot_comm h.point (RotateVector h.v0 h.point angle), hrv, hn]
    nlinarith [sq_nonneg (Dot (NormalizeHyp h.v0 * Real.cos angle
        + NormalizeHyp (Cross (NormalizeHyp h.v0) h.point) * Real.sin angle) h.point)]
  have hv2p : Dot (RotateVector h.v0 h.point angle
        + h.point * VectorLambda (RotateVector h.v0 h.point angle) h.point) h.point = 0 := by
    rw [VectorLambda_of_hyperboloid _ _ hp]
    simp only [Dot_add_left, Dot_mul_left, hp]
    ring
  refine ⟨⟨hp, ?_, ?_⟩, rfl⟩
  · exact NormalizeHyp_unit _ hv2
  · show Dot h.point (NormalizeHyp _) = 0
    rw [Dot_comm, Dot_NormalizeHyp_left, hv2p, mul_zero]

/-- C16: for a position `p` with `⟨p,p⟩ = -1` and a direction guess `v` with `⟨v,v⟩ > 0` that
need be neither unit nor tangent to `p`, after `RotateV0(angle)` the stored direction `d`
satisfies `⟨d,d⟩ = 1` and `⟨p,d⟩ = 0`, and the position is unchanged, for every real angle. -/
theorem C16_rotation_corrects_guess (p v : vec3) (hp : Dot p p = -1) (hv : 0 < Dot v v)
    (angle : ℝ) :
    Dot ((Hyp.mk p v).RotateV0 angle).v0 ((Hyp.mk p v).RotateV0 angle).v0 = 1 ∧
      Dot p ((Hyp.mk p v).RotateV0 angle).v0 = 0 ∧
      ((Hyp.mk p v).RotateV0 angle).point = p := by
  obtain ⟨⟨-, h2, h3⟩, h4⟩ := RotateV0_corrects (Hyp.mk p v) hp hv angle
  exact ⟨h2, h3, h4⟩

theorem C16_rotation_corrects_guess_witness :
    (Dot (vec3.mk 0 (3 / 4) (5 / 4)) (vec3.mk 0 (3 / 4) (5 / 4)) = -1 ∧
      0 < Dot (vec3.mk 2 1 1) (vec3.mk 2 1 1)) ∧
    (Dot ((Hyp.mk (vec3.mk 0 (3 / 4) (5 / 4)) (vec3.mk 2 1 1)).RotateV0 (3 / 5)).v0
        ((Hyp.mk (vec3.mk 0 (3 / 4) (5 / 4)) (vec3.mk 2 1 1)).RotateV0 (3 / 5)).v0 = 1 ∧
      Dot (vec3.mk 0 (3 / 4) (5 / 4))
        ((Hyp.mk (vec3.mk 0 (3 / 4) (5 / 4)) (vec3.mk 2 1 1)).RotateV0 (3 / 5)).v0 = 0 ∧
      ((Hyp.mk (vec3.mk 0 (3 / 4) (5 / 4)) (vec3.mk 2 1 1)).RotateV0 (3 / 5)).point
        = vec3.mk 0 (3 / 4) (5 / 4)) :=
  have h1 : Dot (vec3.mk 0 (3 / 4) (5 / 4)) (vec3.mk 0 (3 / 4) (5 / 4)) = -1 := by
    simp only [Dot]; norm_num
  have h2 : 0 < Dot (vec3.mk 2 1 1) (vec3.mk 2 1 1) := by simp only [Dot]; norm_num
  ⟨⟨h1, h2⟩, C16_rotation_corrects_guess _ _ h1 h2 (3 / 5)⟩

/-! ## The mouth oscillator

The radius and the step `0.005` are real numbers here, so the orbit from the constructed state
passes through `0` and `0.1` exactly.  The two lemmas on one tick, `MoveMouth_radius` and
`MoveMouth_direction`, do not depend on which values the orbit takes. -/

/-- The radius after one tick of `MoveMouth`. -/
theorem MoveMouth_radius (u : UFO) :
    u.MoveMouth.mouth.radius
      = if u.mouth_direction then u.mouth.radius - 0.005 else u.mouth.radius + 0.005 := by
  unfold UFO.MoveMouth
  cases hd : u.mouth_direction <;>
    simp only [HypCircle.SetRadius, HypCircle.GetRadius] <;> split_ifs <;> simp

/-- The direction flag after one tick of `MoveMouth`: it is flipped exactly when the updated
radius is greater than `0.1` or less than `0`. -/
theorem MoveMouth_direction (u : UFO) :
    u.MoveMouth.mouth_direction
      = if u.MoveMouth.mouth.radius > 0.1 ∨ u.MoveMouth.mouth.radius < 0
        then !u.mouth_direction else u.mouth_direction := by
  rw [MoveMouth_radius]
  unfold UFO.MoveMouth
  cases hd : u.mouth_direction <;>
    simp only [HypCircle.SetRadius, HypCircle.GetRadius] <;> split_ifs <;> simp_all

/-- The first twenty ticks from the constructed state: the radius goes down from `0.1` by
`0.005` per tick and the flag stays `true`. -/
theorem MoveMouth_descent (n : ℕ) (hn : n ≤ 20) :
    (UFO.MoveMouth^[n] UFO.ctor).mouth.radius = 0.1 - 0.005 * (n : ℝ) ∧
      (UFO.MoveMouth^[n] UFO.ctor).mouth_direction = true := by
  induction n with
  | zero => simp [UFO.ctor]
  | succ n ih =>
    obtain ⟨hr, hd⟩ := ih (by omega)
    have hn1 : (n : ℝ) + 1 ≤ 20 := by exact_mod_cast hn
    have hn0 : (0 : ℝ) ≤ (n : ℝ) := Nat.cast_nonneg n
    rw [Function.iterate_succ_apply']
    have hrad : (UFO.MoveMouth^[n] UFO.ctor).MoveMouth.mouth.radius
        = 0.1 - 0.005 * ((n + 1 : ℕ) : ℝ) := by
      rw [MoveMouth_radius, hd, if_pos rfl, hr]
      push_cast; ring
    refine ⟨hrad, ?_⟩
    have hcond : ¬ ((UFO.MoveMouth^[n] UFO.ctor).MoveMouth.mouth.radius > 0.1 ∨
        (UFO.MoveMouth^[n] UFO.ctor).MoveMouth.mouth.radius < 0) := by
      rw [hrad]; push_cast
      intro h
      rcases h with h | h
      · norm_num at h; linarith
      · norm_num at h; linarith
    rw [MoveMouth_direction, if_neg hcond, hd]

/-- One tick of `MoveMouth` keeps the invariant of the oscillator. -/
theorem MoveMouth_mouthInv (u : UFO) (h : u.mouthInv) : u.MoveMouth.mouthInv := by
  obtain ⟨k, hr, hcase⟩ := h
  rcases hcase with ⟨hd, hk0, hk1⟩ | ⟨hd, hk0, hk1⟩
  · have hrad : u.MoveMouth.mouth.radius = ((k - 1 : ℤ) : ℝ) * 0.005 := by
      rw [MoveMouth_radius, hd, if_pos rfl, hr]; push_cast; ring
    have hk0r : (0 : ℝ) ≤ (k : ℝ) := by exact_mod_cast hk0
    have hk1r : (k : ℝ) ≤ 21 := by exact_mod_cast hk1
    refine ⟨k - 1, hrad, ?_⟩
    by_cases hz : k = 0
    · right
      have hcond : u.MoveMouth.mouth.radius > 0.1 ∨ u.MoveMouth.mouth.radius < 0 := by
        right; rw [hrad, hz]; norm_num
      rw [MoveMouth_direction, if_pos hcond, hd]
      exact ⟨rfl, by omega, by omega⟩
    · left
      have hk1' : (1 : ℝ) ≤ (k : ℝ) := by
        have : 1 ≤ k := by omega
        exact_mod_cast this
      have hcond : ¬ (u.MoveMouth.mouth.radius > 0.1 ∨ u.MoveMouth.mouth.radius < 0) := by
        rw [hrad]; push_cast
        intro h
        rcases h with h | h
        · norm_num at h; linarith
        · norm_num at h; linarith
      rw [MoveMouth_direction, if_neg hcond, hd]
      exact ⟨rfl, by omega, by omega⟩
  · have hrad : u.MoveMouth.mouth.radius = ((k + 1 : ℤ) : ℝ) * 0.005 := by
      rw [MoveMouth_radius, hd]; simp only [Bool.false_eq_true, if_false]
      rw [hr]; push_cast; ring
    have hk0r : (-1 : ℝ) ≤ (k : ℝ) := by exact_mod_cast hk0
    have hk1r : (k : ℝ) ≤ 20 := by exact_mod_cast hk1
    refine ⟨k + 1, hrad, ?_⟩
    by_cases hz : k = 20
    · left
      have hcond : u.MoveMouth.mouth.radius > 0.1 ∨ u.MoveMouth.mouth.radius < 0 := by
        left; rw [hrad, hz]; norm_num
      rw [MoveMouth_direction, if_pos hcond, hd]
      exact ⟨rfl, by omega, by omega⟩
    · right
      have hk1' : (k : ℝ) ≤ 19 := by
        have : k ≤ 19 := by omega
        exact_mod_cast this
      have hcond : ¬ (u.MoveMouth.mouth.radius > 0.1 ∨ u.MoveMouth.mouth.radius < 0) := by
        rw [hrad]; push_cast
        intro h
        rcases h with h | h
        · norm_num at h; linarith
        · norm_num at h; linarith
      rw [MoveMouth_direction, if_neg hcond, hd]
      exact ⟨rfl, by omega, by omega⟩

/-- The constructed state satisfies the invariant of the oscillator, with `k = 20`. -/
theorem ctor_mouthInv : UFO.ctor.mouthInv := by
  refine ⟨20, ?_, Or.inl ⟨rfl, by norm_num, by norm_num⟩⟩
  simp only [UFO.ctor]; norm_num

/-- The invariant of the oscillator holds after every number of ticks. -/
theorem iterate_mouthInv (n : ℕ) : (UFO.MoveMouth^[n] UFO.ctor).mouthInv := by
  induction n with
  | zero => exact ctor_mouthInv
  | succ n ih =>
    rw [Function.iterate_succ_apply']
    exact MoveMouth_mouthInv _ ih

/-- The state after twenty ticks and after twenty-one ticks: the radius reaches `0` with the
flag unchanged, and the next tick takes it to `-0.005`, where the flag flips. -/
theorem MoveMouth_bottom :
    (UFO.MoveMouth^[20] UFO.ctor).mouth.radius = 0 ∧
      (UFO.MoveMouth^[20] UFO.ctor).mouth_direction = true ∧
      (UFO.MoveMouth^[21] UFO.ctor).mouth.radius = -0.005 ∧
      (UFO.MoveMouth^[21] UFO.ctor).mouth_direction = false := by
  obtain ⟨hr, hd⟩ := MoveMouth_descent 20 (by norm_num)
  have hr0 : (UFO.MoveMouth^[20] UFO.ctor).mouth.radius = 0 := by rw [hr]; norm_num
  have hstep : UFO.MoveMouth^[21] UFO.ctor = (UFO.MoveMouth^[20] UFO.ctor).MoveMouth :=
    Function.iterate_succ_apply' _ _ _
  have hrad : (UFO.MoveMouth^[20] UFO.ctor).MoveMouth.mouth.radius = -0.005 := by
    rw [MoveMouth_radius, hd, if_pos rfl, hr0]; norm_num
  have hcond : (UFO.MoveMouth^[20] UFO.ctor).MoveMouth.mouth.radius > 0.1 ∨
      (UFO.MoveMouth^[20] UFO.ctor).MoveMouth.mouth.radius < 0 := by
    right; rw [hrad]; norm_num
  refine ⟨hr0, hd, by rw [hstep]; exact hrad, ?_⟩
  rw [hstep, MoveMouth_direction, if_pos hcond, hd]
  rfl

/-- C14, refuted: it is not the case that after every number of ticks from the constructed
state (mouth radius `0.1`, flag `true`) the radius lies in `[0, 0.1]`.  The bounds are tested
after the update, so the radius is below `0` on the tick that turns the oscillator round; in
exact arithmetic with step `0.005` that is tick twenty-one, with radius `-0.005`. -/
theorem C14_radius_leaves_interval :
    ¬ (∀ n : ℕ, 0 ≤ (UFO.MoveMouth^[n] UFO.ctor).mouth.radius ∧
      (UFO.MoveMouth^[n] UFO.ctor).mouth.radius ≤ 0.1) := by
  intro hall
  obtain ⟨-, -, h21, -⟩ := MoveMouth_bottom
  have h := (hall 21).1
  rw [h21] at h
  norm_num at h

/-- C14 as amended: from the constructed state (mouth radius `0.1`, flag `true`), after every
number `n` of `MoveMouth` ticks the radius satisfies `-0.005 ≤ radius ≤ 0.105`, at most one
step outside `[0, 0.1]`; and `0 ≤ radius ≤ 0.1` holds after every tick that does not flip
`mouth_direction` (the radius is outside the interval only on a tick that flips it). -/
theorem C14_mouth_radius_bounds (n : ℕ) :
    -0.005 ≤ (UFO.MoveMouth^[n] UFO.ctor).mouth.radius ∧
      (UFO.MoveMouth^[n] UFO.ctor).mouth.radius ≤ 0.105 ∧
      ((UFO.MoveMouth^[n + 1] UFO.ctor).mouth_direction
          = (UFO.MoveMouth^[n] UFO.ctor).mouth_direction →
        0 ≤ (UFO.MoveMouth^[n + 1] UFO.ctor).mouth.radius ∧
          (UFO.MoveMouth^[n + 1] UFO.ctor).mouth.radius ≤ 0.1) := by
  obtain ⟨k, hr, hcase⟩ := iterate_mouthInv n
  have hlo : (-1 : ℤ) ≤ k := by rcases hcase with ⟨-, h, -⟩ | ⟨-, h, -⟩ <;> omega
  have hhi : k ≤ (21 : ℤ) := by rcases hcase with ⟨-, -, h⟩ | ⟨-, -, h⟩ <;> omega
  have hlor : (-1 : ℝ) ≤ (k : ℝ) := by exact_mod_cast hlo
  have hhir : (k : ℝ) ≤ 21 := by exact_mod_cast hhi
  refine ⟨by rw [hr]; norm_num; linarith, by rw [hr]; norm_num; linarith, ?_⟩
  rw [Function.iterate_succ_apply']
  intro hsame
  by_contra hout
  have hcond : (UFO.MoveMouth^[n] UFO.ctor).MoveMouth.mouth.radius > 0.1 ∨
      (UFO.MoveMouth^[n] UFO.ctor).MoveMouth.mouth.radius < 0 := by
    by_contra hno
    push_neg at hno
    exact hout ⟨hno.2, hno.1⟩
  rw [MoveMouth_direction, if_pos hcond] at hsame
  cases hd : (UFO.MoveMouth^[n] UFO.ctor).mouth_direction <;> rw [hd] at hsame <;>
    simp at hsame

theorem C14_mouth_radius_bounds_witness :
    ((UFO.MoveMouth^[0 + 1] UFO.ctor).mouth_direction
        = (UFO.MoveMouth^[0] UFO.ctor).mouth_direction) ∧
    (0 ≤ (UFO.MoveMouth^[0 + 1] UFO.ctor).mouth.radius ∧
      (UFO.MoveMouth^[0 + 1] UFO.ctor).mouth.radius ≤ 0.1) :=
  have h : (UFO.MoveMouth^[0 + 1] UFO.ctor).mouth_direction
      = (UFO.MoveMouth^[0] UFO.ctor).mouth_direction :=
    (MoveMouth_descent 1 (by norm_num)).2.trans (MoveMouth_descent 0 (by norm_num)).2.symm
  ⟨h, (C14_mouth_radius_bounds 0).2.2 h⟩

/-- C20: from the constructed state (mouth radius `0.1`, flag `true`), after every number `n`
of `MoveMouth` ticks the radius is an integer multiple of `0.005` with
`-0.005 ≤ radius ≤ 0.105`; and whenever it is outside `[0, 0.1]` the next tick brings it back
inside, so the oscillator leaves the interval by at most one step and does not stay outside. -/
theorem C20_overshoot_bound (n : ℕ) :
    (∃ k : ℤ, (UFO.MoveMouth^[n] UFO.ctor).mouth.radius = (k : ℝ) * 0.005) ∧
      -0.005 ≤ (UFO.MoveMouth^[n] UFO.ctor).mouth.radius ∧
      (UFO.MoveMouth^[n] UFO.ctor).mouth.radius ≤ 0.105 ∧
      ((UFO.MoveMouth^[n] UFO.ctor).mouth.radius < 0 ∨
          (UFO.MoveMouth^[n] UFO.ctor).mouth.radius > 0.1 →
        0 ≤ (UFO.MoveMouth^[n + 1] UFO.ctor).mouth.radius ∧
          (UFO.MoveMouth^[n + 1] UFO.ctor).mouth.radius ≤ 0.1) := by
  obtain ⟨k, hr, hcase⟩ := iterate_mouthInv n
  have hlo : (-1 : ℤ) ≤ k := by rcases hcase with ⟨-, h, -⟩ | ⟨-, h, -⟩ <;> omega
  have hhi : k ≤ (21 : ℤ) := by rcases hcase with ⟨-, -, h⟩ | ⟨-, -, h⟩ <;> omega
  have hlor : (-1 : ℝ) ≤ (k : ℝ) := by exact_mod_cast hlo
  have hhir : (k : ℝ) ≤ 21 := by exact_mod_cast hhi
  refine ⟨⟨k, hr⟩, by rw [hr]; norm_num; linarith, by rw [hr]; norm_num; linarith, ?_⟩
  intro hout
  rw [Function.iterate_succ_apply', MoveMouth_radius, hr]
  rw [hr] at hout
  rcases hcase with ⟨hd, hk0, -⟩ | ⟨hd, -, hk1⟩
  · have hk0r : (0 : ℝ) ≤ (k : ℝ) := by exact_mod_cast hk0
    rw [hd, if_pos rfl]
    have hk : k = 21 := by
      rcases hout with h | h
      · norm_num at h; linarith
      · have h20 : (20 : ℝ) < (k : ℝ) := by norm_num at h; linarith
        have : (20 : ℤ) < k := by exact_mod_cast h20
        omega
    rw [hk]; norm_num
  · have hk1r : (k : ℝ) ≤ 20 := by exact_mod_cast hk1
    rw [hd]; simp only [Bool.false_eq_true, if_false]
    have hk : k = -1 := by
      rcases hout with h | h
      · have h0 : (k : ℝ) < 0 := by norm_num at h; linarith
        have : k < (0 : ℤ) := by exact_mod_cast h0
        omega
      · norm_num at h; linarith
    rw [hk]; norm_num

theorem C20_overshoot_bound_witness :
    ((UFO.MoveMouth^[21] UFO.ctor).mouth.radius < 0 ∨
      (UFO.MoveMouth^[21] UFO.ctor).mouth.radius > 0.1) ∧
    (0 ≤ (UFO.MoveMouth^[21 + 1] UFO.ctor).mouth.radius ∧
      (UFO.MoveMouth^[21 + 1] UFO.ctor).mouth.radius ≤ 0.1) :=
  have h : (UFO.MoveMouth^[21] UFO.ctor).mouth.radius < 0 ∨
      (UFO.MoveMouth^[21] UFO.ctor).mouth.radius > 0.1 :=
    Or.inl (by rw [MoveMouth_bottom.2.2.1]; norm_num)
  ⟨h, (C20_overshoot_bound 21).2.2.2 h⟩

/-! ## The upper sheet and the Poincaré disk -/

/-- For a valid `Hyp` the square of the `z` of the direction is below the square of the `z` of
the position: the difference is `1` plus a square. -/
theorem valid_z_sq (h : Hyp) (hv : h.valid) :
    h.point.z * h.point.z - h.v0.z * h.v0.z - 1
      = (h.point.x * h.v0.y - h.point.y * h.v0.x) ^ 2 := by
  obtain ⟨hp, hd, ht⟩ := hv
  simp only [Dot] at hp hd ht
  have e1 : h.point.z * h.point.z = 1 + h.point.x * h.point.x + h.point.y * h.point.y := by
    linarith
  have e2 : h.v0.z * h.v0.z = h.v0.x * h.v0.x + h.v0.y * h.v0.y - 1 := by linarith
  have e3 : h.point.z * h.v0.z = h.point.x * h.v0.x + h.point.y * h.v0.y := by linarith
  have e4 : (h.point.x * h.v0.x + h.point.y * h.v0.y) ^ 2
      = (1 + h.point.x * h.point.x + h.point.y * h.point.y)
        * (h.v0.x * h.v0.x + h.v0.y * h.v0.y - 1) := by
    rw [← e3, ← e1, ← e2]; ring
  linear_combination e1 - e2 + e4

/-- `NewPoint` from a valid `Hyp` of the upper sheet stays on the upper sheet. -/
theorem NewPoint_upper (h : Hyp) (hv : h.valid) (hz : 0 < h.point.z) (t : ℝ) :
    0 < (h.NewPoint t).point.z := by
  rw [NewPoint_eq h t hv]
  simp only [vec3.add_z, vec3.mul_z]
  have hkey := valid_z_sq h hv
  have h1 : |h.v0.z| < h.point.z :=
    abs_lt_of_sq_lt_sq (by nlinarith [sq_nonneg (h.point.x * h.v0.y - h.point.y * h.v0.x)]) hz.le
  have h2 : |Real.sinh t| < Real.cosh t := by
    rw [abs_lt]
    have := Real.exp_pos t
    rw [← Real.cosh_add_sinh] at this
    exact ⟨by linarith, Real.sinh_lt_cosh t⟩
  have h3 : |h.v0.z * Real.sinh t| < h.point.z * Real.cosh t := by
    rw [abs_mul]
    exact mul_lt_mul'' h1 h2 (abs_nonneg _) (abs_nonneg _)
  have h4 := (abs_lt.mp h3).1
  linarith

/-- A point of the upper sheet has `z ≥ 1`, its projection is defined and lies inside the unit
disk. -/
theorem ProjectHypToPoinc_in_disk (p : vec3) (hp : Dot p p = -1) (hz : 0 < p.z) :
    1 ≤ p.z ∧ p.z + 1 ≠ 0 ∧
      (ProjectHypToPoinc p).x ^ 2 + (ProjectHypToPoinc p).y ^ 2 < 1 ∧
      (-1 ≤ (ProjectHypToPoinc p).x ∧ (ProjectHypToPoinc p).x ≤ 1) ∧
      (-1 ≤ (ProjectHypToPoinc p).y ∧ (ProjectHypToPoinc p).y ≤ 1) := by
  simp only [Dot] at hp
  have hz1 : 1 ≤ p.z := by nlinarith [sq_nonneg p.x, sq_nonneg p.y]
  have hpos : 0 < p.z + 1 := by linarith
  have hsum : (ProjectHypToPoinc p).x ^ 2 + (ProjectHypToPoinc p).y ^ 2 < 1 := by
    simp only [ProjectHypToPoinc]
    rw [div_pow, div_pow, ← add_div, div_lt_one (by positivity)]
    nlinarith
  have hx : (ProjectHypToPoinc p).x ^ 2 < 1 := by
    nlinarith [sq_nonneg (ProjectHypToPoinc p).y]
  have hy : (ProjectHypToPoinc p).y ^ 2 < 1 := by
    nlinarith [sq_nonneg (ProjectHypToPoinc p).x]
  have hx' := abs_lt_of_sq_lt_sq (by simpa using hx) (zero_le_one' ℝ)
  have hy' := abs_lt_of_sq_lt_sq (by simpa using hy) (zero_le_one' ℝ)
  rw [abs_lt] at hx' hy'
  exact ⟨hz1, hpos.ne', hsum, ⟨hx'.1.le, hx'.2.le⟩, ⟨hy'.1.le, hy'.2.le⟩⟩

/-- Every boundary sample of a disk with a valid centre on the upper sheet is a point of the
upper sheet of the hyperboloid. -/
theorem temp_upper (c : HypCircle) (hv : c.pos.valid) (hz : 0 < c.pos.point.z) (i : ℕ) :
    Dot (c.temp i).point (c.temp i).point = -1 ∧ 0 < (c.temp i).point.z := by
  have hr : (c.pos.RotateV0 (Real.pi * 2 / (db : ℝ) * (i : ℝ))).valid := RotateV0_valid _ _ hv
  have hrz : 0 < (c.pos.RotateV0 (Real.pi * 2 / (db : ℝ) * (i : ℝ))).point.z := hz
  exact ⟨(NewPoint_valid _ c.radius hr).1, NewPoint_upper _ hr hrz c.radius⟩

/-- C13: a `Hyp` whose position has Lorentz norm `-1` and `z > 0` has `z ≥ 1`, so that the
divisor `z + 1` of `ReturnPoinc` is not zero, and `ReturnPoinc` returns `(X, Y)` with
`X² + Y² < 1`, both coordinates in `[-1, 1]`; and for a disk with a valid centre on the upper
sheet and any radius, `Refresh` computes `db + 2` planar points (the centre, the samples, the
first sample again), each of them inside the unit disk and so in `[-1, 1] × [-1, 1]`. -/
theorem C13_planar_output_in_disk (h : Hyp) (c : HypCircle) :
    (Dot h.point h.point = -1 → 0 < h.point.z →
      1 ≤ h.point.z ∧ h.point.z + 1 ≠ 0 ∧
      h.ReturnPoinc.x ^ 2 + h.ReturnPoinc.y ^ 2 < 1 ∧
      (-1 ≤ h.ReturnPoinc.x ∧ h.ReturnPoinc.x ≤ 1) ∧
      (-1 ≤ h.ReturnPoinc.y ∧ h.ReturnPoinc.y ≤ 1)) ∧
    (c.pos.valid → 0 < c.pos.point.z →
      c.Refresh.length = db + 2 ∧
      ∀ v ∈ c.Refresh, v.x ^ 2 + v.y ^ 2 < 1 ∧ (-1 ≤ v.x ∧ v.x ≤ 1) ∧ (-1 ≤ v.y ∧ v.y ≤ 1)) := by
  constructor
  · intro hp hz
    exact ProjectHypToPoinc_in_disk h.point hp hz
  · intro hv hz
    have hsample : ∀ i : ℕ, (c.temp i).ReturnPoinc.x ^ 2 + (c.temp i).ReturnPoinc.y ^ 2 < 1 ∧
        (-1 ≤ (c.temp i).ReturnPoinc.x ∧ (c.temp i).ReturnPoinc.x ≤ 1) ∧
        (-1 ≤ (c.temp i).ReturnPoinc.y ∧ (c.temp i).ReturnPoinc.y ≤ 1) := by
      intro i
      obtain ⟨h1, h2⟩ := temp_upper c hv hz i
      exact (ProjectHypToPoinc_in_disk _ h1 h2).2.2
    refine ⟨by simp [HypCircle.Refresh], ?_⟩
    intro v hmem
    simp only [HypCircle.Refresh, List.mem_cons, List.mem_append, List.mem_map, List.mem_range,
      List.not_mem_nil, or_false] at hmem
    rcases hmem with rfl | ⟨i, -, rfl⟩ | rfl
    · exact (ProjectHypToPoinc_in_disk _ hv.1 hz).2.2
    · exact hsample (i + 1)
    · exact hsample 1

theorem C13_planar_output_in_disk_witness :
    ((Dot (Hyp.mk ⟨0, 0, 1⟩ ⟨0, 1, 0⟩).point (Hyp.mk ⟨0, 0, 1⟩ ⟨0, 1, 0⟩).point = -1 ∧
        (0 : ℝ) < (Hyp.mk ⟨0, 0, 1⟩ ⟨0, 1, 0⟩).point.z) ∧
      (Hyp.mk ⟨0, 0, 1⟩ ⟨0, 1, 0⟩).ReturnPoinc.x ^ 2
        + (Hyp.mk ⟨0, 0, 1⟩ ⟨0, 1, 0⟩).ReturnPoinc.y ^ 2 < 1) ∧
    (((HypCircle.mk (1 / 5) (Hyp.mk ⟨0, 0, 1⟩ ⟨0, 1, 0⟩)).pos.valid ∧
        (0 : ℝ) < (HypCircle.mk (1 / 5) (Hyp.mk ⟨0, 0, 1⟩ ⟨0, 1, 0⟩)).pos.point.z) ∧
      (HypCircle.mk (1 / 5) (Hyp.mk ⟨0, 0, 1⟩ ⟨0, 1, 0⟩)).Refresh.length = db + 2) :=
  have hz : (0 : ℝ) < (Hyp.mk ⟨0, 0, 1⟩ ⟨0, 1, 0⟩).point.z := by norm_num
  ⟨⟨⟨origin_valid.1, hz⟩,
      ((C13_planar_output_in_disk (Hyp.mk ⟨0, 0, 1⟩ ⟨0, 1, 0⟩)
        (HypCircle.mk (1 / 5) (Hyp.mk ⟨0, 0, 1⟩ ⟨0, 1, 0⟩))).1 origin_valid.1 hz).2.2.1⟩,
    ⟨⟨origin_valid, hz⟩,
      ((C13_planar_output_in_disk (Hyp.mk ⟨0, 0, 1⟩ ⟨0, 1, 0⟩)
        (HypCircle.mk (1 / 5) (Hyp.mk ⟨0, 0, 1⟩ ⟨0, 1, 0⟩))).2 origin_valid hz).1⟩⟩

/-! ## The working copies of `Realign` -/

@[simp] theorem vec2.scale_x (a : vec2) (s : ℝ) : (a * s).x = a.x * s := rfl
@[simp] theorem vec2.scale_y (a : vec2) (s : ℝ) : (a * s).y = a.y * s := rfl

/-- The planar direction that `Realign` hands to `SetV0`, read as a `vec3`, has Lorentz norm
one when the stored direction is a unit tangent: its planar part cannot vanish. -/
theorem getRotationVector_unit (h : Hyp) (hv : h.valid) :
    0 < h.v0.x * h.v0.x + h.v0.y * h.v0.y ∧
      Dot (vec3.ofVec2 h.getRotationVector) (vec3.ofVec2 h.getRotationVector) = 1 := by
  have hd := hv.2.1
  simp only [Dot] at hd
  have hpos : 0 < h.v0.x * h.v0.x + h.v0.y * h.v0.y := by nlinarith [mul_self_nonneg h.v0.z]
  have hl : 0 < Real.sqrt (h.v0.x * h.v0.x + h.v0.y * h.v0.y) := Real.sqrt_pos.mpr hpos
  have hsq : Real.sqrt (h.v0.x * h.v0.x + h.v0.y * h.v0.y)
      * Real.sqrt (h.v0.x * h.v0.x + h.v0.y * h.v0.y)
      = h.v0.x * h.v0.x + h.v0.y * h.v0.y := Real.mul_self_sqrt hpos.le
  refine ⟨hpos, ?_⟩
  simp only [Dot, vec3.ofVec2, Hyp.getRotationVector, normalize, length, vec2.scale_x, vec2.scale_y]
  field_simp

/-- The three working copies of `Realign` are valid and sit at the body's centre, when the
body's `Hyp` is valid. -/
theorem Realign_copies_valid (u : UFO) (hv : u.body.pos.valid) :
    (u.Realign_copyL.valid ∧ u.Realign_copyL.point = u.body.pos.point) ∧
      (u.Realign_copyR.valid ∧ u.Realign_copyR.point = u.body.pos.point) ∧
      (u.Realign_copyM.valid ∧ u.Realign_copyM.point = u.body.pos.point) := by
  have hg := (getRotationVector_unit u.body.pos hv).2
  have hL : u.Realign_copyL.valid ∧ u.Realign_copyL.point = u.body.pos.point := by
    have := RotateV0_corrects
      (u.body.GetPos.SetV0 (vec3.ofVec2 u.body.GetPos.getRotationVector)) hv.1
      (by
        show 0 < Dot (vec3.ofVec2 u.body.pos.getRotationVector)
          (vec3.ofVec2 u.body.pos.getRotationVector)
        rw [hg]; norm_num) 0.6
    exact this
  have hR : u.Realign_copyR.valid := RotateV0_valid _ _ hL.1
  have hRp : u.Realign_copyR.point = u.body.pos.point := hL.2
  have hM : u.Realign_copyM.valid := RotateV0_valid _ _ hR
  have hMp : u.Realign_copyM.point = u.body.pos.point := hL.2
  exact ⟨hL, ⟨hR, hRp⟩, ⟨hM, hMp⟩⟩

/-- What `Realign` stores: the eyes and the mouth are the working copies advanced by the
body's radius, each pupil is the eye with the bearing of the peer's body as direction, advanced
by the eye's radius minus half the pupil's radius; the body and the radii are kept. -/
theorem Realign_fields (u other : UFO) :
    (u.Realign other).eyes0.pos = u.Realign_copyL.NewPoint u.body.radius ∧
      (u.Realign other).eyes1.pos = u.Realign_copyR.NewPoint u.body.radius ∧
      (u.Realign other).mouth.pos = u.Realign_copyM.NewPoint u.body.radius ∧
      (u.Realign other).eyes2.pos
        = (Hyp.mk (u.Realign other).eyes0.pos.point
            ((u.Realign other).eyes0.pos.GetDistanceDirection other.body.pos).2).NewPoint
          (u.eyes0.radius - u.eyes2.radius / 2) ∧
      (u.Realign other).eyes3.pos
        = (Hyp.mk (u.Realign other).eyes1.pos.point
            ((u.Realign other).eyes1.pos.GetDistanceDirection other.body.pos).2).NewPoint
          (u.eyes1.radius - u.eyes3.radius / 2) ∧
      (u.Realign other).body = u.body :=
  ⟨rfl, rfl, rfl, rfl, rfl, rfl⟩

/-! ## Distance and bearing of an advanced point -/

/-- The argument of `acoshf` for the point reached by `NewPoint(r)` from a valid `Hyp`, seen
from a `Hyp` at the same position: it is `cosh r`. -/
theorem Dot_neg_NewPoint (c h : Hyp) (hv : h.valid) (hpt : h.point = c.point) (r : ℝ) :
    Dot (-(h.NewPoint r).point) c.point = Real.cosh r := by
  have hp := hv.1
  have ht' : Dot h.v0 h.point = 0 := by rw [Dot_comm]; exact hv.2.2
  rw [NewPoint_eq h r hv, ← hpt]
  simp only [Dot_neg_left, Dot_add_left, Dot_mul_left, hp, ht']
  ring

/-- The distance from a `Hyp` to the point reached by `NewPoint(r)`, `r ≥ 0`, from a valid
`Hyp` at the same position is `r`. -/
theorem distance_NewPoint (c h : Hyp) (hv : h.valid) (hpt : h.point = c.point) (r : ℝ)
    (hr : 0 ≤ r) : (c.GetDistanceDirection (h.NewPoint r)).1 = r := by
  show acoshf (Dot (-(h.NewPoint r).point) c.point) = r
  rw [Dot_neg_NewPoint c h hv hpt r, acoshf_cosh r hr]

/-- The bearing from a `Hyp` to the point reached by `NewPoint(k)`, `k > 0`, from a valid `Hyp`
at the same position is the direction of that `Hyp`. -/
theorem bearing_NewPoint (c h : Hyp) (hv : h.valid) (hpt : h.point = c.point) (k : ℝ)
    (hk : 0 < k) : (c.GetDistanceDirection (h.NewPoint k)).2 = h.v0 := by
  have hd : acoshf (Dot (-(h.NewPoint k).point) c.point) = k := by
    rw [Dot_neg_NewPoint c h hv hpt k, acoshf_cosh k hk.le]
  have hs : Real.sinh k ≠ 0 := (Real.sinh_pos_iff.mpr hk).ne'
  show ((h.NewPoint k).point
      - c.point * Real.cosh (acoshf (Dot (-(h.NewPoint k).point) c.point)))
    / Real.sinh (acoshf (Dot (-(h.NewPoint k).point) c.point)) = h.v0
  rw [hd, NewPoint_eq h k hv, ← hpt]
  ext <;> simp only [vec3.add_x, vec3.add_y, vec3.add_z, vec3.mul_x, vec3.mul_y, vec3.mul_z,
    vec3.sub_x, vec3.sub_y, vec3.sub_z, vec3.div_x, vec3.div_y, vec3.div_z] <;>
    field_simp

/-- The bearing that `GetDistanceDirection` returns between two distinct points of the upper
sheet is a unit tangent at the first one: together with that position it is a valid `Hyp`. -/
theorem bearing_valid (self other : Hyp) (hp : Dot self.point self.point = -1)
    (hq : Dot other.point other.point = -1) (hsz : 0 < self.point.z)
    (hoz : 0 < other.point.z) (hne : self.point ≠ other.point) :
    (Hyp.mk self.point (self.GetDistanceDirection other).2).valid := by
  obtain ⟨hge, heq⟩ := upper_sheet_dot self.point other.point hp hq hsz hoz
  have hgt : 1 < Dot (-other.point) self.point :=
    lt_of_le_of_ne hge (fun e => hne (heq e.symm))
  have hqp : Dot other.point self.point = -Dot (-other.point) self.point := by
    rw [Dot_neg_left]; ring
  have hpq : Dot self.point other.point = -Dot (-other.point) self.point := by
    rw [Dot_comm, hqp]
  have hdir0 : (self.GetDistanceDirection other).2
      = (other.point - self.point * Real.cosh (acoshf (Dot (-other.point) self.point)))
        / Real.sinh (acoshf (Dot (-other.point) self.point)) := rfl
  generalize Dot (-other.point) self.point = c at hge hgt hqp hpq hdir0
  have hrad : 0 < c ^ 2 - 1 := by nlinarith
  have hsinh : Real.sinh (acoshf c) = Real.sqrt (c ^ 2 - 1) := sinh_acoshf c hge
  have hspos : 0 < Real.sinh (acoshf c) := by rw [hsinh]; exact Real.sqrt_pos.mpr hrad
  have hssq : Real.sinh (acoshf c) ^ 2 = c ^ 2 - 1 := by rw [hsinh]; exact Real.sq_sqrt hrad.le
  rw [hdir0, cosh_acoshf c hge]
  refine ⟨hp, ?_, ?_⟩
  · simp only [Dot_div_left, Dot_div_right, Dot_sub_left, Dot_sub_right, Dot_mul_left,
      Dot_mul_right, hp, hq, hqp, hpq]
    field_simp
    nlinarith
  · show Dot self.point ((other.point - self.point * c) / Real.sinh (acoshf c)) = 0
    simp only [Dot_div_right, Dot_sub_right, Dot_mul_right, hp, hpq]
    field_simp

/-! ## Placement of the eyes, the pupils and the mouth -/

/-- C18: for an entity whose body `Hyp` is valid and whose body radius is not negative (it is
`0.2` in every entity the program constructs), after `Realign` with any peer the centres of the
left eye `eyes[0]`, of the right eye `eyes[1]` and of the mouth are each at hyperbolic distance
exactly `body.radius` from the body's centre, as `GetDistanceDirection` from the body's `Hyp`
measures it; the body itself is not moved. -/
theorem C18_satellites_on_rim (u other : UFO) (hv : u.body.pos.valid)
    (hr : 0 ≤ u.body.radius) :
    ((u.Realign other).body.pos.GetDistanceDirection (u.Realign other).eyes0.pos).1
        = u.body.radius ∧
      ((u.Realign other).body.pos.GetDistanceDirection (u.Realign other).eyes1.pos).1
        = u.body.radius ∧
      ((u.Realign other).body.pos.GetDistanceDirection (u.Realign other).mouth.pos).1
        = u.body.radius ∧
      (u.Realign other).body = u.body ∧ 0 < UFO.ctor.body.radius := by
  obtain ⟨⟨hL, hLp⟩, ⟨hR, hRp⟩, ⟨hM, hMp⟩⟩ := Realign_copies_valid u hv
  obtain ⟨e0, e1, em, -, -, eb⟩ := Realign_fields u other
  rw [e0, e1, em, eb]
  refine ⟨distance_NewPoint _ _ hL hLp _ hr, distance_NewPoint _ _ hR hRp _ hr,
    distance_NewPoint _ _ hM hMp _ hr, rfl, ?_⟩
  simp only [UFO.ctor]; norm_num

theorem C18_satellites_on_rim_witness :
    (UFO.ctor.body.pos.valid ∧ 0 ≤ UFO.ctor.body.radius) ∧
    (((UFO.ctor.Realign second).body.pos.GetDistanceDirection
          (UFO.ctor.Realign second).eyes0.pos).1 = UFO.ctor.body.radius ∧
      ((UFO.ctor.Realign second).body.pos.GetDistanceDirection
          (UFO.ctor.Realign second).eyes1.pos).1 = UFO.ctor.body.radius ∧
      ((UFO.ctor.Realign second).body.pos.GetDistanceDirection
          (UFO.ctor.Realign second).mouth.pos).1 = UFO.ctor.body.radius ∧
      (UFO.ctor.Realign second).body = UFO.ctor.body ∧ 0 < UFO.ctor.body.radius) :=
  have hv : UFO.ctor.body.pos.valid := origin_valid
  have hr : 0 ≤ UFO.ctor.body.radius := by simp only [UFO.ctor]; norm_num
  ⟨⟨hv, hr⟩, C18_satellites_on_rim UFO.ctor second hv hr⟩

/-- A pupil placed by `Realign`: from an eye centre `e` (a valid `Hyp` of the upper sheet) and
a peer position distinct from it, the point reached by advancing `k > 0` along the bearing
toward the peer is seen from `e` under that same bearing, at distance `k`. -/
theorem pupil_bearing (e q : Hyp) (he : e.valid) (hez : 0 < e.point.z)
    (hq : Dot q.point q.point = -1) (hqz : 0 < q.point.z) (hne : e.point ≠ q.point)
    (k : ℝ) (hk : 0 < k) :
    (Hyp.mk e.point (e.GetDistanceDirection q).2).valid ∧
      (e.GetDistanceDirection
        ((Hyp.mk e.point (e.GetDistanceDirection q).2).NewPoint k)).2
        = (e.GetDistanceDirection q).2 ∧
      (e.GetDistanceDirection
        ((Hyp.mk e.point (e.GetDistanceDirection q).2).NewPoint k)).1 = k := by
  have hb := bearing_valid e q he.1 hq hez hqz hne
  exact ⟨hb, bearing_NewPoint e _ hb rfl k hk, distance_NewPoint e _ hb rfl k hk.le⟩

/-- The point reached by `NewPoint(r)` from a valid `Hyp` at the position of `c` differs from
every point `q` whose `acoshf` argument against `c` is not `cosh r`. -/
theorem NewPoint_ne (c h : Hyp) (hv : h.valid) (hpt : h.point = c.point) (r : ℝ) (q : vec3)
    (hq : Dot (-q) c.point ≠ Real.cosh r) : (h.NewPoint r).point ≠ q := by
  intro e
  apply hq
  rw [← e]
  exact Dot_neg_NewPoint c h hv hpt r

/-- The two bodies of the scenario of `onInitialization`: both valid and on the upper sheet,
with `cosh 1` as the `acoshf` argument between their centres, which is not `cosh 0.2`. -/
theorem scenario_bodies :
    (first.body.pos.valid ∧ 0 < first.body.pos.point.z) ∧
      (second.body.pos.valid ∧ 0 < second.body.pos.point.z) ∧
      Dot (-second.body.pos.point) first.body.pos.point ≠ Real.cosh first.body.radius ∧
      Dot (-first.body.pos.point) second.body.pos.point ≠ Real.cosh second.body.radius := by
  have hz1 : (0 : ℝ) < first.body.pos.point.z := by
    show (0 : ℝ) < 1
    norm_num
  have hrot : ((Hyp.mk ⟨0, 0, 1⟩ ⟨0, 1, 0⟩).RotateV0 (-(Real.pi / 2))).valid :=
    RotateV0_valid _ _ origin_valid
  have hrz : (0 : ℝ) < ((Hyp.mk ⟨0, 0, 1⟩ ⟨0, 1, 0⟩).RotateV0 (-(Real.pi / 2))).point.z := hz1
  have hv2 : second.body.pos.valid := NewPoint_valid _ 1 hrot
  have hz2 : 0 < second.body.pos.point.z := NewPoint_upper _ hrot hrz 1
  have hd1 : Dot (-second.body.pos.point) first.body.pos.point = Real.cosh 1 :=
    Dot_neg_NewPoint (Hyp.mk ⟨0, 0, 1⟩ ⟨0, 1, 0⟩) _ hrot rfl 1
  have hd2 : Dot (-first.body.pos.point) second.body.pos.point = Real.cosh 1 := by
    rw [Dot_neg_left, Dot_comm, ← Dot_neg_left, hd1]
  have hr1 : first.body.radius = 0.2 := rfl
  have hr2 : second.body.radius = 0.2 := rfl
  have hlt : Real.cosh 0.2 < Real.cosh 1 := by
    rw [Real.cosh_lt_cosh]
    norm_num [abs_of_pos]
  refine ⟨⟨origin_valid, hz1⟩, ⟨hv2, hz2⟩, ?_, ?_⟩
  · rw [hd1, hr1]; exact hlt.ne'
  · rw [hd2, hr2]; exact hlt.ne'

/-- In the scenario of `onInitialization` neither eye centre of either entity coincides with
the centre of the peer's body. -/
theorem scenario_no_coincidence :
    ((first.Realign second).eyes0.pos.point ≠ second.body.pos.point ∧
      (first.Realign second).eyes1.pos.point ≠ second.body.pos.point) ∧
    ((second.Realign first).eyes0.pos.point ≠ first.body.pos.point ∧
      (second.Realign first).eyes1.pos.point ≠ first.body.pos.point) := by
  obtain ⟨⟨hv1, -⟩, ⟨hv2, -⟩, hd1, hd2⟩ := scenario_bodies
  obtain ⟨⟨hL1, hLp1⟩, ⟨hR1, hRp1⟩, -⟩ := Realign_copies_valid first hv1
  obtain ⟨⟨hL2, hLp2⟩, ⟨hR2, hRp2⟩, -⟩ := Realign_copies_valid second hv2
  exact ⟨⟨NewPoint_ne _ _ hL1 hLp1 _ _ hd1, NewPoint_ne _ _ hR1 hRp1 _ _ hd1⟩,
    ⟨NewPoint_ne _ _ hL2 hLp2 _ _ hd2, NewPoint_ne _ _ hR2 hRp2 _ _ hd2⟩⟩

/-- C12: for an entity and a peer whose body `Hyp`s are valid points of the upper sheet, with
the pupil offsets `k = eye.radius - pupil.radius / 2` positive (`0.035` for the constructed
radii) and the peer's body centre distinct from both eye centres, after `Realign` each pupil
(`eyes[2]`, `eyes[3]`) is the point reached from its eye centre (`eyes[0]`, `eyes[1]`) by
advancing `k` along the bearing toward the peer's body centre; the bearing from the eye centre
to the pupil equals the bearing from the eye centre to the peer's body centre, and the pupil is
at hyperbolic distance `k` from the eye centre.  In the scenario of `onInitialization` (both
bodies from the origin, the second rotated right by `π / 2` and advanced by `1`) no eye centre
coincides with the peer's body centre, for either entity. -/
theorem C12_gaze_alignment :
    (∀ u other : UFO, u.body.pos.valid → 0 < u.body.pos.point.z →
      other.body.pos.valid → 0 < other.body.pos.point.z →
      0 < u.eyes0.radius - u.eyes2.radius / 2 → 0 < u.eyes1.radius - u.eyes3.radius / 2 →
      (u.Realign other).eyes0.pos.point ≠ other.body.pos.point →
      (u.Realign other).eyes1.pos.point ≠ other.body.pos.point →
      ((u.Realign other).eyes2.pos
          = (Hyp.mk (u.Realign other).eyes0.pos.point
              ((u.Realign other).eyes0.pos.GetDistanceDirection other.body.pos).2).NewPoint
            (u.eyes0.radius - u.eyes2.radius / 2) ∧
        ((u.Realign other).eyes0.pos.GetDistanceDirection (u.Realign other).eyes2.pos).2
          = ((u.Realign other).eyes0.pos.GetDistanceDirection other.body.pos).2 ∧
        ((u.Realign other).eyes0.pos.GetDistanceDirection (u.Realign other).eyes2.pos).1
          = u.eyes0.radius - u.eyes2.radius / 2) ∧
      ((u.Realign other).eyes3.pos
          = (Hyp.mk (u.Realign other).eyes1.pos.point
              ((u.Realign other).eyes1.pos.GetDistanceDirection other.body.pos).2).NewPoint
            (u.eyes1.radius - u.eyes3.radius / 2) ∧
        ((u.Realign other).eyes1.pos.GetDistanceDirection (u.Realign other).eyes3.pos).2
          = ((u.Realign other).eyes1.pos.GetDistanceDirection other.body.pos).2 ∧
        ((u.Realign other).eyes1.pos.GetDistanceDirection (u.Realign other).eyes3.pos).1
          = u.eyes1.radius - u.eyes3.radius / 2)) ∧
    (((first.Realign second).eyes0.pos.point ≠ second.body.pos.point ∧
        (first.Realign second).eyes1.pos.point ≠ second.body.pos.point) ∧
      ((second.Realign first).eyes0.pos.point ≠ first.body.pos.point ∧
        (second.Realign first).eyes1.pos.point ≠ first.body.pos.point)) := by
  refine ⟨?_, scenario_no_coincidence⟩
  intro u other hv hz ho hoz hkL hkR hneL hneR
  obtain ⟨⟨hL, hLp⟩, ⟨hR, hRp⟩, -⟩ := Realign_copies_valid u hv
  obtain ⟨e0, e1, -, e2, e3, -⟩ := Realign_fields u other
  have hLz : 0 < u.Realign_copyL.point.z := by rw [hLp]; exact hz
  have hRz : 0 < u.Realign_copyR.point.z := by rw [hRp]; exact hz
  have hv0 : (u.Realign other).eyes0.pos.valid := by rw [e0]; exact NewPoint_valid _ _ hL
  have hv1 : (u.Realign other).eyes1.pos.valid := by rw [e1]; exact NewPoint_valid _ _ hR
  have hz0 : 0 < (u.Realign other).eyes0.pos.point.z := by
    rw [e0]; exact NewPoint_upper _ hL hLz _
  have hz1 : 0 < (u.Realign other).eyes1.pos.point.z := by
    rw [e1]; exact NewPoint_upper _ hR hRz _
  obtain ⟨-, hbL, hdL⟩ := pupil_bearing _ _ hv0 hz0 ho.1 hoz hneL _ hkL
  obtain ⟨-, hbR, hdR⟩ := pupil_bearing _ _ hv1 hz1 ho.1 hoz hneR _ hkR
  refine ⟨⟨e2, ?_, ?_⟩, ⟨e3, ?_, ?_⟩⟩
  · rw [e2]; exact hbL
  · rw [e2]; exact hdL
  · rw [e3]; exact hbR
  · rw [e3]; exact hdR

theorem C12_gaze_alignment_witness :
    (first.body.pos.valid ∧ 0 < first.body.pos.point.z ∧
      second.body.pos.valid ∧ 0 < second.body.pos.point.z ∧
      0 < first.eyes0.radius - first.eyes2.radius / 2 ∧
      0 < first.eyes1.radius - first.eyes3.radius / 2 ∧
      (first.Realign second).eyes0.pos.point ≠ second.body.pos.point ∧
      (first.Realign second).eyes1.pos.point ≠ second.body.pos.point) ∧
    (((first.Realign second).eyes2.pos
          = (Hyp.mk (first.Realign second).eyes0.pos.point
              ((first.Realign second).eyes0.pos.GetDistanceDirection second.body.pos).2).NewPoint
            (first.eyes0.radius - first.eyes2.radius / 2) ∧
        ((first.Realign second).eyes0.pos.GetDistanceDirection
            (first.Realign second).eyes2.pos).2
          = ((first.Realign second).eyes0.pos.GetDistanceDirection second.body.pos).2 ∧
        ((first.Realign second).eyes0.pos.GetDistanceDirection
            (first.Realign second).eyes2.pos).1
          = first.eyes0.radius - first.eyes2.radius / 2) ∧
      ((first.Realign second).eyes3.pos
          = (Hyp.mk (first.Realign second).eyes1.pos.point
              ((first.Realign second).eyes1.pos.GetDistanceDirection second.body.pos).2).NewPoint
            (first.eyes1.radius - first.eyes3.radius / 2) ∧
        ((first.Realign second).eyes1.pos.GetDistanceDirection
            (first.Realign second).eyes3.pos).2
          = ((first.Realign second).eyes1.pos.GetDistanceDirection second.body.pos).2 ∧
        ((first.Realign second).eyes1.pos.GetDistanceDirection
            (first.Realign second).eyes3.pos).1
          = first.eyes1.radius - first.eyes3.radius / 2)) :=
  have hb := scenario_bodies
  have hn := scenario_no_coincidence
  have hkL : 0 < first.eyes0.radius - first.eyes2.radius / 2 := by
    show (0 : ℝ) < 0.05 - 0.03 / 2
    norm_num
  have hkR : 0 < first.eyes1.radius - first.eyes3.radius / 2 := by
    show (0 : ℝ) < 0.05 - 0.03 / 2
    norm_num
  ⟨⟨hb.1.1, hb.1.2, hb.2.1.1, hb.2.1.2, hkL, hkR, hn.1.1, hn.1.2⟩,
    C12_gaze_alignment.1 first second hb.1.1 hb.1.2 hb.2.1.1 hb.2.1.2 hkL hkR hn.1.1 hn.1.2⟩

end Skeleton

end
